import Mathlib

/-!
Verification of the batch network-device command execution engine
(src/exec/mdev_time.py) against its natural-language specification.

The Python source is shallowly embedded below.  Pure string helpers
(sanitize_filename, normalize_device_type, get_device_vendor,
get_device_config, the command splitter and the audit-log redaction
regex) are translated directly as Lean functions over lists of
characters.  Python whitespace (for str.strip and the regex class
backslash-s) is modelled by the six ASCII whitespace characters, and
str.lower by ASCII Char.toLower.  Effectful parts (the connection
retry loop of connect_device, the exception flow of save_result, the
per-device pipeline of execute_commands / batch_execute, and the
temp-file-then-rename write) are modelled as explicit state or event
functions driven by oracles that describe the behaviour of the
network and the file system.  The set SUPPORTED_DEVICE_TYPES comes
from the external netmiko library (CLASS_MAPPER keys), so functions
reading it take the set as an explicit list parameter.
-/

/-- The six ASCII whitespace characters: model of Python str.strip
whitespace and of the regex class backslash-s. -/
def isSpace (c : Char) : Bool :=
  c = ' ' || c = '\t' || c = '\n' || c = '\r' || c = '\x0b' || c = '\x0c'

/-- Negation of isSpace, the model of the regex class backslash-S. -/
def notSpace (c : Char) : Bool := !(isSpace c)

/-- Python str.lower, restricted to ASCII. -/
def pyLower (s : String) : String := ⟨s.data.map Char.toLower⟩

/-- Whitespace stripping on a character list: drop spaces from both ends. -/
def stripChars (l : List Char) : List Char :=
  ((l.dropWhile isSpace).reverse.dropWhile isSpace).reverse

/-- Python str.strip with no arguments. -/
def pyStrip (s : String) : String := ⟨stripChars s.data⟩

/-- Substring test on character lists: needle occurs contiguously in hay.
Model of the Python operator - needle in hay - on strings. -/
def isSubstr (n : List Char) : List Char → Bool
  | [] => n.isEmpty
  | c :: t => n.isPrefixOf (c :: t) || isSubstr n t

/-- Python substring containment: needle in hay. -/
def pyIn (needle hay : String) : Bool := isSubstr needle.data hay.data

/-- The characters removed by sanitize_filename
(regex class: backslash slash star question colon quote lt gt pipe). -/
def bannedChars : List Char := ['\\', '/', '*', '?', ':', '"', '<', '>', '|']

/-- sanitize_filename from src/exec/mdev_time.py line 277:
re.sub removes the banned characters, then str.strip, then slice to
the first 60 characters. -/
def sanitize_filename (name : String) : String :=
  ⟨(stripChars (name.data.filter (fun c => !(bannedChars.contains c)))).take 60⟩

/-- DEVICE_TYPE_ALIASES from src/exec/mdev_time.py lines 31-153,
the alias table mapping common vendor nicknames to canonical netmiko
device types. -/
def DEVICE_TYPE_ALIASES : List (String × String) := [
  ("cisco", "cisco_ios"),
  ("cisco_switch", "cisco_ios"),
  ("cisco_router", "cisco_ios"),
  ("cisco_catalyst", "cisco_ios"),
  ("nexus", "cisco_nxos"),
  ("cisco_nexus", "cisco_nxos"),
  ("asa", "cisco_asa"),
  ("cisco_firewall", "cisco_asa"),
  ("ios_xe", "cisco_xe"),
  ("ios_xr", "cisco_xr"),
  ("cisco_wlc", "cisco_wlc_ssh"),
  ("huawei", "huawei"),
  ("huawei_switch", "huawei"),
  ("huawei_router", "huawei"),
  ("huawei_firewall", "huawei"),
  ("vrp", "huawei"),
  ("vrpv8", "huawei_vrpv8"),
  ("huawei_vrp", "huawei_vrpv8"),
  ("hp", "hp_comware"),
  ("hp_switch", "hp_comware"),
  ("comware", "hp_comware"),
  ("procurve", "hp_procurve"),
  ("hp_procurve_switch", "hp_procurve"),
  ("aruba", "aruba_os"),
  ("aruba_switch", "aruba_os"),
  ("h3c", "hp_comware"),
  ("h3c_switch", "hp_comware"),
  ("h3c_router", "hp_comware"),
  ("h3c_comware", "hp_comware"),
  ("juniper", "juniper"),
  ("junos", "juniper"),
  ("juniper_switch", "juniper"),
  ("juniper_router", "juniper"),
  ("juniper_firewall", "juniper_screenos"),
  ("srx", "juniper_screenos"),
  ("fortinet", "fortinet"),
  ("fortigate", "fortinet"),
  ("fortios", "fortinet"),
  ("fortinet_firewall", "fortinet"),
  ("paloalto", "paloalto_panos"),
  ("panos", "paloalto_panos"),
  ("pa", "paloalto_panos"),
  ("paloalto_firewall", "paloalto_panos"),
  ("dell", "dell_force10"),
  ("dell_switch", "dell_force10"),
  ("force10", "dell_force10"),
  ("dell_powerconnect", "dell_powerconnect"),
  ("dell_os6", "dell_os6"),
  ("dell_os9", "dell_os9"),
  ("dell_os10", "dell_os10"),
  ("extreme", "extreme"),
  ("extreme_switch", "extreme"),
  ("extreme_exos", "extreme_exos"),
  ("exos", "extreme_exos"),
  ("extreme_wing", "extreme_wing"),
  ("ruckus", "ruckus_fastiron"),
  ("ruckus_switch", "ruckus_fastiron"),
  ("ruckus_icx", "ruckus_fastiron"),
  ("fastiron", "ruckus_fastiron"),
  ("brocade", "ruckus_fastiron"),
  ("mikrotik", "mikrotik_routeros"),
  ("routeros", "mikrotik_routeros"),
  ("mikrotik_router", "mikrotik_routeros"),
  ("alcatel", "alcatel_aos"),
  ("aos", "alcatel_aos"),
  ("alcatel_switch", "alcatel_aos"),
  ("nokia", "nokia_sros"),
  ("sros", "nokia_sros"),
  ("avaya", "avaya_ers"),
  ("ers", "avaya_ers"),
  ("avaya_switch", "avaya_ers"),
  ("allied_telesis", "allied_telesis_awplus"),
  ("awplus", "allied_telesis_awplus"),
  ("at", "allied_telesis_awplus"),
  ("f5", "f5_tmsh"),
  ("bigip", "f5_tmsh"),
  ("f5_ltm", "f5_tmsh"),
  ("a10", "a10"),
  ("a10_acos", "a10"),
  ("linux", "linux"),
  ("ubuntu", "linux"),
  ("centos", "linux"),
  ("redhat", "linux"),
  ("debian", "linux"),
  ("generic_termserver", "generic_termserver"),
  ("terminal_server", "generic_termserver")]

/-- Dictionary lookup in the alias table. -/
def lookupAlias (k : String) : Option String :=
  (DEVICE_TYPE_ALIASES.find? (fun p => p.1 == k)).map (·.2)

/-- The fuzzy-containment pass of normalize_device_type lines 296-298:
first supported type that contains the normalized input as a substring
or is contained in it. -/
def fuzzyMatch (supported : List String) (original : String) : Option String :=
  supported.find? (fun s => pyIn original s || pyIn s original)

/-- normalize_device_type from src/exec/mdev_time.py lines 281-301.
The module-level SUPPORTED_DEVICE_TYPES set (netmiko CLASS_MAPPER
keys, external to this repository) is passed as a list parameter. -/
def normalize_device_type (supported : List String) (device_type : String) : String :=
  let original := pyStrip (pyLower device_type)
  if supported.contains original then original
  else
    match lookupAlias original with
    | some mapped =>
      if supported.contains mapped then mapped
      else
        match fuzzyMatch supported original with
        | some s => s
        | none => original
    | none =>
      match fuzzyMatch supported original with
      | some s => s
      | none => original

/-- vendor_mapping from get_device_vendor, src/exec/mdev_time.py
lines 307-322 (insertion order of the Python dict preserved). -/
def vendor_mapping : List (String × List String) := [
  ("cisco", ["cisco_", "ios", "nxos", "asa", "wlc", "xe", "xr"]),
  ("huawei", ["huawei", "vrp"]),
  ("juniper", ["juniper", "junos", "screenos"]),
  ("hp", ["hp_", "aruba", "comware", "procurve"]),
  ("fortinet", ["fortinet"]),
  ("paloalto", ["paloalto", "panos"]),
  ("dell", ["dell_"]),
  ("extreme", ["extreme"]),
  ("ruckus", ["ruckus", "brocade", "fastiron"]),
  ("mikrotik", ["mikrotik"]),
  ("alcatel", ["alcatel", "nokia"]),
  ("avaya", ["avaya"]),
  ("f5", ["f5_"]),
  ("a10", ["a10"])]

/-- get_device_vendor from src/exec/mdev_time.py lines 303-328. -/
def get_device_vendor (device_type : String) : String :=
  let dt := pyLower device_type
  match vendor_mapping.find? (fun p => p.2.any (fun pat => pyIn pat dt)) with
  | some p => p.1
  | none => "default"

/-- One entry of DEVICE_VENDOR_CONFIGS: the per-vendor tuning record.
use_keys and allow_agent are optional keys, present only for the
fortinet and paloalto entries. -/
structure VendorConfig where
  timeout : Nat
  banner_timeout : Nat
  auth_timeout : Nat
  fast_cli : Bool
  session_timeout : Nat
  global_delay_factor : Nat
  conn_timeout : Nat
  use_keys : Option Bool
  allow_agent : Option Bool
deriving DecidableEq, Repr

/-- DEVICE_VENDOR_CONFIGS from src/exec/mdev_time.py lines 156-270. -/
def DEVICE_VENDOR_CONFIGS : List (String × VendorConfig) := [
  ("cisco", ⟨25, 15, 10, false, 60, 1, 10, none, none⟩),
  ("huawei", ⟨30, 20, 15, false, 90, 2, 15, none, none⟩),
  ("juniper", ⟨35, 25, 15, false, 120, 2, 15, none, none⟩),
  ("hp", ⟨25, 15, 10, false, 60, 1, 10, none, none⟩),
  ("fortinet", ⟨30, 20, 15, false, 60, 2, 15, some false, some false⟩),
  ("paloalto", ⟨45, 30, 20, false, 120, 3, 20, some false, some false⟩),
  ("dell", ⟨30, 20, 15, false, 60, 1, 10, none, none⟩),
  ("extreme", ⟨30, 20, 15, false, 60, 2, 15, none, none⟩),
  ("ruckus", ⟨30, 20, 15, false, 60, 2, 15, none, none⟩),
  ("default", ⟨30, 15, 10, false, 60, 1, 10, none, none⟩)]

/-- The default tuning profile, DEVICE_VENDOR_CONFIGS at key default. -/
def defaultVendorConfig : VendorConfig := ⟨30, 15, 10, false, 60, 1, 10, none, none⟩

/-- get_device_config from src/exec/mdev_time.py lines 330-333:
dict.get with the default entry as fallback. -/
def get_device_config (device_type : String) : VendorConfig :=
  match DEVICE_VENDOR_CONFIGS.find? (fun p => p.1 == get_device_vendor device_type) with
  | some p => p.2
  | none => defaultVendorConfig

/-- Python str.split on a single semicolon separator, on character
lists: returns the (possibly empty) pieces between semicolons and
always at least one piece. -/
def splitSemis : List Char → List (List Char)
  | [] => [[]]
  | c :: t =>
    match splitSemis t with
    | [] => [[]]
    | h :: r => if c = ';' then [] :: h :: r else (c :: h) :: r

/-- Command splitting from execute_commands, src/exec/mdev_time.py
line 513: split the mult_command field on semicolons, strip each
piece, keep the non-empty ones. -/
def splitCommands (s : String) : List String :=
  ((splitSemis s.data).map (fun l => (⟨stripChars l⟩ : String))).filter (fun c => !(c == ""))

/-- Outcome of one netmiko.ConnectHandler call inside connect_device.
success is a usable session; timeoutErr and authErr are the two
exception types of the first except clause (NetmikoTimeoutException,
NetmikoAuthenticationException); otherErr is the catch-all clause. -/
inductive AttemptOutcome where
  | success
  | timeoutErr
  | authErr
  | otherErr
deriving DecidableEq, Repr

/-- Observable result of the connect_device retry loop: how many
ConnectHandler calls were made, whether a session was returned, and
how many audit-log entries were written. -/
structure ConnectResult where
  attempts : Nat
  connected : Bool
  logged : Nat
deriving DecidableEq, Repr

/-- max_retries from src/exec/mdev_time.py line 435. -/
def max_retries : Nat := 2

/-- The retry loop of connect_device, src/exec/mdev_time.py lines
434-458, run over the remaining list of attempt indices (the Python
range).  On any caught exception the code retries while further
attempts remain (both except clauses have the same retry structure)
and writes one audit-log entry on the final failed attempt. -/
def connectAux (oracle : Nat → AttemptOutcome) : List Nat → ConnectResult
  | [] => ⟨0, false, 0⟩
  | a :: rest =>
    match oracle a with
    | .success => ⟨1, true, 0⟩
    | _ =>
      if rest.isEmpty then ⟨1, false, 1⟩
      else
        let r := connectAux oracle rest
        ⟨r.attempts + 1, r.connected, r.logged⟩

/-- connect_device, retry behaviour only: the loop
for attempt in range(max_retries + 1). -/
def connect_device_model (oracle : Nat → AttemptOutcome) : ConnectResult :=
  connectAux oracle (List.range (max_retries + 1))

/-- Python exception classes relevant to save_result: the except
clause at line 669 catches OSError only; any other exception class
propagates. -/
inductive PyError where
  | osError (msg : String)
  | valueError (msg : String)
deriving DecidableEq, Repr

/-- Failure behaviour of the three effectful steps of save_result:
os.makedirs (line 641, outside the try), the temp-file write (lines
659-666, inside the try) and os.rename (line 668, inside the try).
none means the step succeeds. -/
structure SaveEnv where
  makedirs : Option PyError
  tmpWrite : Option PyError
  rename : Option PyError
deriving DecidableEq, Repr

/-- Observable result of a save_result call that returned normally:
whether log_error was invoked and whether the file exists at the
final path afterwards. -/
structure SaveRes where
  logged : Bool
  fileAtFinal : Bool
deriving DecidableEq, Repr

/-- Exception flow of save_result, src/exec/mdev_time.py lines
637-670.  makedirs runs before the try block, so its failure
propagates to the caller.  Inside the try, a failing write or rename
is caught if and only if it is an OSError, in which case log_error
is called and the function returns normally with no file at the
final path. -/
def save_result_exc (env : SaveEnv) : Except PyError SaveRes :=
  match env.makedirs with
  | some e => .error e
  | none =>
    let inner : Except PyError Bool :=
      match env.tmpWrite with
      | some e => .error e
      | none =>
        match env.rename with
        | some e => .error e
        | none => .ok true
    match inner with
    | .ok f => .ok ⟨false, f⟩
    | .error (.osError _) => .ok ⟨true, false⟩
    | .error e => .error e

/-- File-system operations performed by the success path of
save_result: create an (empty) temp file, append chunks to it, rename
it onto the final path. -/
inductive FsOp where
  | create (p : String)
  | append (p chunk : String)
  | rename (src dst : String)
deriving DecidableEq, Repr

/-- A file system as an association list from path to content; the
first binding for a path wins. -/
def fsGet (fs : List (String × String)) (p : String) : Option String :=
  (fs.find? (fun q => q.1 == p)).map (·.2)

/-- Small-step interpretation of one file-system operation. -/
def applyOp (fs : List (String × String)) : FsOp → List (String × String)
  | .create p => (p, "") :: fs
  | .append p chunk =>
    match fsGet fs p with
    | some v => (p, v ++ chunk) :: fs
    | none => fs
  | .rename src dst =>
    match fsGet fs src with
    | some v => (dst, v) :: (fs.filter (fun q => !(q.1 == src)))
    | none => fs

/-- Run a list of file-system operations in order. -/
def runOps (fs : List (String × String)) (ops : List FsOp) : List (String × String) :=
  ops.foldl applyOp fs

/-- The operation trace of a successful save_result, lines 658-668:
tempfile.NamedTemporaryFile creates the temp file in the output
directory, the content is written to it (as one or more chunks), and
os.rename moves it onto the final path. -/
def save_ops (tmp final : String) (chunks : List String) : List FsOp :=
  .create tmp :: (chunks.map (FsOp.append tmp) ++ [.rename tmp final])

/-- The lowercase keyword password as a character list. -/
def pwChars : List Char := ['p', 'a', 's', 's', 'w', 'o', 'r', 'd']

/-- The lowercase keyword secret as a character list. -/
def secChars : List Char := ['s', 'e', 'c', 'r', 'e', 't']

/-- Case-insensitive pattern prefix match: pat is a lowercase pattern;
on success returns the matched original characters and the remainder. -/
def stripPrefixCI : List Char → List Char → Option (List Char × List Char)
  | [], l => some ([], l)
  | _ :: _, [] => none
  | p :: ps, c :: cs =>
    if Char.toLower c = p then
      match stripPrefixCI ps cs with
      | some (m, r) => some (c :: m, r)
      | none => none
    else none

/-- The group (password|secret) of the redaction regex with
re.IGNORECASE: try password first, then secret (the two alternatives
can never both match since they differ at the first character). -/
def matchKeyword (l : List Char) : Option (List Char × List Char) :=
  match stripPrefixCI pwChars l with
  | some r => some r
  | none => stripPrefixCI secChars l

/-- The part of the redaction regex after the keyword group:
backslash-s* = backslash-s* backslash-S+ — skip whitespace, require
an equals sign, skip whitespace, then take the greedy non-empty run
of non-space characters as the value; returns the value and the
remainder after it. -/
def parseAfterKey (r : List Char) : Option (List Char × List Char) :=
  if (r.dropWhile isSpace).head? = some '=' then
    if ((((r.dropWhile isSpace).tail).dropWhile isSpace).takeWhile notSpace).isEmpty then none
    else some (((((r.dropWhile isSpace).tail).dropWhile isSpace).takeWhile notSpace),
               ((((r.dropWhile isSpace).tail).dropWhile isSpace).dropWhile notSpace))
  else none

/-- One leftmost match of the redaction regex
(password|secret) backslash-s* = backslash-s* backslash-S+
at the head of the list: returns the matched keyword characters (the
group), the greedy non-space value, and the remainder after the
match. -/
def tryMatch (l : List Char) : Option (List Char × List Char × List Char) :=
  (matchKeyword l).bind (fun kr => (parseAfterKey kr.2).map (fun vr => (kr.1, vr.1, vr.2)))

/-- Fuelled scan of re.sub over the input: at each position, replace a
leftmost match by the keyword followed by =*** and continue after the
match, otherwise emit one character and continue.  The fuel only
serves structural termination; it is sufficient whenever it is at
least the list length. -/
def redactFuel : Nat → List Char → List Char
  | 0, l => l
  | fuel + 1, l =>
    match tryMatch l with
    | some (k, _, rest) => k ++ '=' :: '*' :: '*' :: '*' :: redactFuel fuel rest
    | none =>
      match l with
      | [] => []
      | c :: t => c :: redactFuel fuel t

/-- The redaction scan with adequate fuel. -/
def redactList (l : List Char) : List Char := redactFuel l.length l

/-- The sanitization step of log_error, src/exec/mdev_time.py line
674: re.sub of the credential pattern, replacing each match by the
matched keyword followed by =***. -/
def redact (error : String) : String := ⟨redactList error.data⟩

/-- The audit-log line written by log_error, line 675:
timestamp, host and sanitized message joined by pipes. -/
def log_line (timestamp ip error : String) : String :=
  timestamp ++ " | " ++ ip ++ " | " ++ redact error

/-- Result of one execute_commands call (src/exec/mdev_time.py lines
510-545): the returned output if any, the number of audit-log
entries written, the number of WARN skips printed, and whether a
connection was attempted. -/
structure ExecResult where
  output : Option String
  audits : Nat
  warns : Nat
  connAttempted : Bool
deriving DecidableEq, Repr

/-- Oracle describing one device task: per-attempt connection
outcomes, whether command execution raises after connecting, the
output produced when it does not, and the save_result behaviour. -/
structure TaskEnv where
  connect : Nat → AttemptOutcome
  execRaises : Bool
  output : String
  save : SaveEnv

/-- execute_commands, src/exec/mdev_time.py lines 510-545: empty
command lists are skipped with a WARN and no connection attempt;
connection failures return none after connect_device already logged;
an exception during execution is caught and logged; otherwise the
joined output is returned. -/
def execute_commands_model (mult_command : String) (env : TaskEnv) : ExecResult :=
  if (splitCommands mult_command).isEmpty then ⟨none, 0, 1, false⟩
  else
    let c := connect_device_model env.connect
    if c.connected then
      if env.execRaises then ⟨none, 1, 0, true⟩
      else ⟨some env.output, 0, 0, true⟩
    else ⟨none, c.logged, 0, true⟩

/-- Per-device bookkeeping of the batch_execute completion loop. -/
structure TaskOutcome where
  warns : Nat
  audits : Nat
  resultFiles : Nat
  connAttempted : Bool
deriving DecidableEq, Repr

/-- The per-future body of batch_execute, src/exec/mdev_time.py lines
699-715: a non-none result is saved (save_result may log an OSError
itself and write no file); an exception escaping the task body,
including a non-OSError escaping save_result, is caught by the
surrounding except clause and logged. -/
def process_future (mult_command : String) (env : TaskEnv) : TaskOutcome :=
  let e := execute_commands_model mult_command env
  match e.output with
  | none => ⟨e.warns, e.audits, 0, e.connAttempted⟩
  | some _ =>
    match save_result_exc env.save with
    | .ok r =>
      ⟨e.warns, e.audits + (if r.logged then 1 else 0),
        if r.fileAtFinal then 1 else 0, e.connAttempted⟩
    | .error _ => ⟨e.warns, e.audits + 1, 0, e.connAttempted⟩

/-- Total number of recorded outcomes (result files plus audit-log
entries) across a batch, one device per list entry. -/
def batchEntries (devs : List (String × TaskEnv)) : Nat :=
  (devs.map (fun d =>
    (process_future d.1 d.2).audits + (process_future d.1 d.2).resultFiles)).sum

/-- The result filename built by save_result, src/exec/mdev_time.py
line 644: sanitized ip, raw hostname, vendor and device type joined
by underscores. -/
def result_filename (ip hostname device_type : String) : String :=
  sanitize_filename ip ++ "_" ++ hostname ++ "_" ++
    get_device_vendor device_type ++ "_" ++ device_type ++ ".txt"

/-- os.path.join for a relative second component. -/
def pathJoin (a b : String) : String :=
  if a = "" then b
  else if a.data.getLast? = some '/' then a ++ b
  else a ++ "/" ++ b

/-- The full output path of save_result, lines 639-644 and 668:
dest_path joined with the dated directory, joined with the result
filename. -/
def result_path (dest_path date_str ip hostname device_type : String) : String :=
  pathJoin (pathJoin dest_path ("result_" ++ date_str))
    (result_filename ip hostname device_type)

/-- A representative subset of the netmiko CLASS_MAPPER keys, used to
instantiate theorems about normalize_device_type at concrete inputs. -/
def demoSupported : List String :=
  ["cisco_ios", "cisco_nxos", "cisco_asa", "huawei", "hp_comware",
   "juniper", "fortinet", "paloalto_panos", "linux"]

/-- Absence of leading whitespace, one conjunct of the
sanitize_filename claim. -/
def noLeadingWs (s : String) : Bool :=
  match s.data with
  | [] => true
  | c :: _ => !(isSpace c)

/-- Absence of trailing whitespace, one conjunct of the
sanitize_filename claim. -/
def noTrailingWs (s : String) : Bool :=
  match s.data.getLast? with
  | none => true
  | some c => !(isSpace c)

/-- Every character of the list is whitespace. -/
def allSpaceL (l : List Char) : Prop := ∀ c ∈ l, isSpace c = true

/-- No character of the list is whitespace. -/
def noSpaceL (l : List Char) : Prop := ∀ c ∈ l, isSpace c = false

/-- The list is a case variant of one of the two keywords of the
redaction pattern. -/
def keywordish (k : List Char) : Prop :=
  k.map Char.toLower = pwChars ∨ k.map Char.toLower = secChars

/-- The list is empty or starts with a whitespace character. -/
def headWsOrEmpty : List Char → Prop
  | [] => True
  | c :: _ => isSpace c = true

/-- Concatenation of the chunks written to the temp file. -/
def concatChunks : List String → String
  | [] => ""
  | c :: cs => c ++ concatChunks cs

/-- Shape predicate for the operations of the temp-file phase of a
save: the operation creates or appends to the named path and renames
nothing. -/
def opOnPath (p : String) : FsOp → Prop
  | .create q => q = p
  | .append q _ => q = p
  | .rename _ _ => False

/-! ### Lemmas about the connect_device retry loop -/

theorem connectAux_cons_success (oracle : Nat → AttemptOutcome) (a : Nat) (rest : List Nat)
    (h : oracle a = .success) : connectAux oracle (a :: rest) = ⟨1, true, 0⟩ := by
  simp [connectAux, h]

theorem connectAux_cons_fail (oracle : Nat → AttemptOutcome) (a : Nat) (rest : List Nat)
    (h : oracle a ≠ .success) :
    connectAux oracle (a :: rest) =
      if rest.isEmpty then ⟨1, false, 1⟩
      else ⟨(connectAux oracle rest).attempts + 1, (connectAux oracle rest).connected,
            (connectAux oracle rest).logged⟩ := by
  cases e : oracle a
  · exact absurd e h
  all_goals simp [connectAux, e]

theorem connectAux_attempts_le (oracle : Nat → AttemptOutcome) (l : List Nat) :
    (connectAux oracle l).attempts ≤ l.length := by
  induction l with
  | nil => simp [connectAux]
  | cons a rest ih =>
    by_cases h : oracle a = .success
    · rw [connectAux_cons_success oracle a rest h]
      simp
    · rw [connectAux_cons_fail oracle a rest h]
      cases hr : rest.isEmpty
      · simp only [Bool.false_eq_true, if_false]
        simpa using Nat.succ_le_succ ih
      · simp

theorem connectAux_all_fail (oracle : Nat → AttemptOutcome) (l : List Nat)
    (hne : l ≠ []) (h : ∀ a ∈ l, oracle a ≠ .success) :
    connectAux oracle l = ⟨l.length, false, 1⟩ := by
  induction l with
  | nil => exact absurd rfl hne
  | cons a rest ih =>
    have ha : oracle a ≠ .success := h a (List.mem_cons_self a rest)
    rw [connectAux_cons_fail oracle a rest ha]
    cases rest with
    | nil => simp
    | cons b rs =>
      have hrec := ih (by simp) (fun x hx => h x (List.mem_cons_of_mem a hx))
      simp [hrec]

theorem connectAux_connected_or_logged (oracle : Nat → AttemptOutcome) (l : List Nat)
    (hne : l ≠ []) :
    ((connectAux oracle l).connected = true ∧ (connectAux oracle l).logged = 0) ∨
    ((connectAux oracle l).connected = false ∧ (connectAux oracle l).logged = 1) := by
  induction l with
  | nil => exact absurd rfl hne
  | cons a rest ih =>
    by_cases hs : oracle a = .success
    · left
      rw [connectAux_cons_success oracle a rest hs]
      exact ⟨rfl, rfl⟩
    · rw [connectAux_cons_fail oracle a rest hs]
      cases rest with
      | nil => right; simp
      | cons b rs =>
        rcases ih (by simp) with ⟨h1, h2⟩ | ⟨h1, h2⟩
        · left; simp [h1, h2]
        · right; simp [h1, h2]

theorem connect_device_connected_or_logged (oracle : Nat → AttemptOutcome) :
    ((connect_device_model oracle).connected = true ∧ (connect_device_model oracle).logged = 0) ∨
    ((connect_device_model oracle).connected = false ∧ (connect_device_model oracle).logged = 1) :=
  connectAux_connected_or_logged oracle (List.range (max_retries + 1)) (by decide)

/-- Claim C8: for every device profile, connect makes at most 3
connection attempts in total (one initial attempt plus at most 2
retries); a first successful attempt means exactly one attempt is
made, and when all 3 attempts fail the loop stops with a classified
failure written to the audit log and no fourth attempt occurs. -/
theorem connect_device_attempt_bound (oracle : Nat → AttemptOutcome) :
    (connect_device_model oracle).attempts ≤ max_retries + 1 ∧
    (oracle 0 = .success → connect_device_model oracle = ⟨1, true, 0⟩) ∧
    ((∀ i, i ≤ max_retries → oracle i ≠ .success) →
      connect_device_model oracle = ⟨max_retries + 1, false, 1⟩) := by
  have hr : List.range (max_retries + 1) = [0, 1, 2] := rfl
  refine ⟨?_, ?_, ?_⟩
  · have h := connectAux_attempts_le oracle (List.range (max_retries + 1))
    simpa [connect_device_model] using h
  · intro h0
    unfold connect_device_model
    rw [hr]
    exact connectAux_cons_success oracle 0 [1, 2] h0
  · intro hall
    unfold connect_device_model
    rw [hr]
    have hm : ∀ a ∈ [0, 1, 2], oracle a ≠ .success := by
      intro a ha
      simp only [List.mem_cons, List.not_mem_nil, or_false] at ha
      rcases ha with rfl | rfl | rfl
      · exact hall 0 (by decide)
      · exact hall 1 (by decide)
      · exact hall 2 (by decide)
    simpa using connectAux_all_fail oracle [0, 1, 2] (by simp) hm

/-- Witness for connect_device_attempt_bound: concrete oracles, one
succeeding immediately, one failing on all attempts. -/
theorem connect_device_attempt_bound_witness :
    ((fun _ : Nat => AttemptOutcome.success) 0 = AttemptOutcome.success ∧
      connect_device_model (fun _ => AttemptOutcome.success) = ⟨1, true, 0⟩) ∧
    ((∀ i, i ≤ max_retries → (fun _ : Nat => AttemptOutcome.timeoutErr) i ≠ AttemptOutcome.success) ∧
      connect_device_model (fun _ => AttemptOutcome.timeoutErr) = ⟨max_retries + 1, false, 1⟩) := by
  have h1 : (fun _ : Nat => AttemptOutcome.success) 0 = AttemptOutcome.success := rfl
  have h2 : ∀ i, i ≤ max_retries →
      (fun _ : Nat => AttemptOutcome.timeoutErr) i ≠ AttemptOutcome.success := by
    intro i _ h
    exact AttemptOutcome.noConfusion h
  exact ⟨⟨h1, (connect_device_attempt_bound _).2.1 h1⟩,
         ⟨h2, (connect_device_attempt_bound _).2.2 h2⟩⟩

/-- Counterexample to claim C1 as stated: with an authentication
failure on every attempt, the connect loop makes 3 attempts, not 1 —
the attempt IS repeated after a NetmikoAuthenticationException, so
authentication failures do not trigger zero retries. -/
theorem connect_auth_zero_retries_counterexample :
    connect_device_model (fun _ => AttemptOutcome.authErr) = ⟨3, false, 1⟩ ∧
    (connect_device_model (fun _ => AttemptOutcome.authErr)).attempts ≠ 1 := by
  constructor
  · rfl
  · decide

/-- Claim C1 (amended): an authentication failure is retried exactly
like a timeout: with authentication errors on all attempts the loop
makes the full 3 attempts and writes one audit-log entry only after
the final attempt fails. -/
theorem connect_auth_failure_retried (oracle : Nat → AttemptOutcome)
    (h0 : oracle 0 = .authErr) (h1 : oracle 1 = .authErr) (h2 : oracle 2 = .authErr) :
    connect_device_model oracle = ⟨3, false, 1⟩ := by
  have hr : List.range (max_retries + 1) = [0, 1, 2] := rfl
  unfold connect_device_model
  rw [hr]
  have hall : ∀ a ∈ [0, 1, 2], oracle a ≠ .success := by
    intro a ha
    simp only [List.mem_cons, List.not_mem_nil, or_false] at ha
    rcases ha with rfl | rfl | rfl
    · simp [h0]
    · simp [h1]
    · simp [h2]
  simpa using connectAux_all_fail oracle [0, 1, 2] (by simp) hall

/-- Witness for connect_auth_failure_retried at the constant
authentication-failure oracle. -/
theorem connect_auth_failure_retried_witness :
    (fun _ : Nat => AttemptOutcome.authErr) 0 = AttemptOutcome.authErr ∧
    connect_device_model (fun _ => AttemptOutcome.authErr) = ⟨3, false, 1⟩ :=
  ⟨rfl, connect_auth_failure_retried (fun _ => AttemptOutcome.authErr) rfl rfl rfl⟩

/-! ### The empty-command skip, the save exception flow, and batch accounting -/

/-- Claim C6: for every device profile whose command list is empty
after splitting and stripping, execute_commands returns no output,
attempts no connection, and the completed task produces no result
file and no audit-log entry — only one WARN-level skip. -/
theorem empty_commands_skip (mult_command : String) (env : TaskEnv)
    (h : splitCommands mult_command = []) :
    execute_commands_model mult_command env = ⟨none, 0, 1, false⟩ ∧
    process_future mult_command env = ⟨1, 0, 0, false⟩ := by
  have he : (splitCommands mult_command).isEmpty = true := by
    rw [h]
    rfl
  have h1 : execute_commands_model mult_command env = ⟨none, 0, 1, false⟩ := by
    unfold execute_commands_model
    rw [he]
    rfl
  refine ⟨h1, ?_⟩
  unfold process_future
  rw [h1]

/-- Witness for empty_commands_skip: a command field containing only
semicolons and blanks. -/
theorem empty_commands_skip_witness :
    splitCommands " ; ;; " = [] ∧
    process_future " ; ;; " ⟨fun _ => AttemptOutcome.success, false, "", ⟨none, none, none⟩⟩ =
      ⟨1, 0, 0, false⟩ :=
  ⟨by decide, (empty_commands_skip " ; ;; " _ (by decide)).2⟩

/-- Counterexample to claim C7 as stated: a failure of os.makedirs
while creating the output directory happens before the try block of
save_result, so it propagates to the caller instead of being caught
and logged. -/
theorem save_result_throws_counterexample :
    save_result_exc ⟨some (PyError.osError "Permission denied"), none, none⟩ =
      .error (PyError.osError "Permission denied") ∧
    (save_result_exc ⟨some (PyError.osError "Permission denied"), none, none⟩).isOk = false := by
  exact ⟨rfl, rfl⟩

/-- Claim C7 (amended): when the output directory is created
successfully, save_result never throws for OSError-class failures of
the temp-file write or the rename: the error is caught and recorded
in the audit log, and the function returns normally. -/
theorem save_result_catches_oserror (env : SaveEnv)
    (hmk : env.makedirs = none)
    (hw : ∀ e, env.tmpWrite = some e → ∃ m, e = PyError.osError m)
    (hr : ∀ e, env.rename = some e → ∃ m, e = PyError.osError m) :
    ∃ r, save_result_exc env = .ok r ∧
      (r.fileAtFinal = false → r.logged = true) ∧
      (r.fileAtFinal = true → env.tmpWrite = none ∧ env.rename = none) := by
  obtain ⟨mk, tw, rn⟩ := env
  simp only at hmk hw hr
  subst hmk
  cases tw with
  | some e =>
    obtain ⟨m, rfl⟩ := hw e rfl
    exact ⟨⟨true, false⟩, rfl, by simp, by simp⟩
  | none =>
    cases rn with
    | some e =>
      obtain ⟨m, rfl⟩ := hr e rfl
      exact ⟨⟨true, false⟩, rfl, by simp, by simp⟩
    | none =>
      exact ⟨⟨false, true⟩, rfl, by simp, by simp⟩

/-- Witness for save_result_catches_oserror: a concrete environment
whose temp-file write fails with an OSError. -/
theorem save_result_catches_oserror_witness :
    (⟨none, some (PyError.osError "disk full"), none⟩ : SaveEnv).makedirs = none ∧
    ∃ r, save_result_exc ⟨none, some (PyError.osError "disk full"), none⟩ = .ok r ∧
      (r.fileAtFinal = false → r.logged = true) ∧
      (r.fileAtFinal = true →
        (⟨none, some (PyError.osError "disk full"), none⟩ : SaveEnv).tmpWrite = none ∧
        (⟨none, some (PyError.osError "disk full"), none⟩ : SaveEnv).rename = none) := by
  refine ⟨rfl, save_result_catches_oserror _ rfl ?_ ?_⟩
  · intro e he
    exact ⟨"disk full", (Option.some.inj he).symm⟩
  · intro e he
    exact Option.noConfusion he

theorem save_result_exc_cases (env : SaveEnv) :
    save_result_exc env = .ok ⟨false, true⟩ ∨
    save_result_exc env = .ok ⟨true, false⟩ ∨
    ∃ e, save_result_exc env = .error e := by
  obtain ⟨mk, tw, rn⟩ := env
  cases mk with
  | some e => exact Or.inr (Or.inr ⟨e, rfl⟩)
  | none =>
    cases tw with
    | some e =>
      cases e with
      | osError m => exact Or.inr (Or.inl rfl)
      | valueError m => exact Or.inr (Or.inr ⟨.valueError m, rfl⟩)
    | none =>
      cases rn with
      | some e =>
        cases e with
        | osError m => exact Or.inr (Or.inl rfl)
        | valueError m => exact Or.inr (Or.inr ⟨.valueError m, rfl⟩)
      | none => exact Or.inl rfl

theorem process_future_one_entry (mult_command : String) (env : TaskEnv)
    (h : (splitCommands mult_command).isEmpty = false) :
    (process_future mult_command env).audits + (process_future mult_command env).resultFiles = 1 := by
  unfold process_future execute_commands_model
  rw [h]
  simp only [Bool.false_eq_true, if_false]
  rcases connect_device_connected_or_logged env.connect with ⟨hc, hl⟩ | ⟨hc, hl⟩
  · rw [hc]
    simp only [if_true]
    by_cases he : env.execRaises
    · rw [if_pos he]
      rfl
    · rw [if_neg he]
      simp only
      rcases save_result_exc_cases env.save with hs | hs | ⟨e, hs⟩ <;> rw [hs] <;> simp
  · rw [hc]
    simp [hl]

/-- Counterexample to claim C5 as stated: a batch consisting of one
device whose command list is empty records zero outcomes across
result files and audit-log entries (the device only triggers a WARN
skip), so the batch does not record exactly N outcomes for N
devices. -/
theorem batch_entry_count_counterexample :
    batchEntries [("; ;", ⟨fun _ => AttemptOutcome.success, false, "out", ⟨none, none, none⟩⟩)] = 0 ∧
    [("; ;", (⟨fun _ => AttemptOutcome.success, false, "out", ⟨none, none, none⟩⟩ : TaskEnv))].length = 1 := by
  exact ⟨by decide, rfl⟩

/-- Claim C5 (amended): for every batch in which every device profile
has at least one non-blank command, exactly N outcomes are recorded
across result files and audit-log entries for N devices — each such
device contributes exactly one of the two; devices whose command list
is empty after splitting contribute neither (they are skipped with a
WARN, see claim C6). -/
theorem batch_records_each_device (devs : List (String × TaskEnv))
    (h : ∀ d ∈ devs, (splitCommands d.1).isEmpty = false) :
    batchEntries devs = devs.length := by
  induction devs with
  | nil => rfl
  | cons d rest ih =>
    have hd := process_future_one_entry d.1 d.2 (h d (List.mem_cons_self d rest))
    have hr := ih (fun x hx => h x (List.mem_cons_of_mem d hx))
    unfold batchEntries at hr ⊢
    simp only [List.map_cons, List.sum_cons, List.length_cons]
    omega

/-- Witness for batch_records_each_device: a two-device batch, one
device succeeding end to end, one failing authentication on every
attempt; two outcomes are recorded. -/
theorem batch_records_each_device_witness :
    (∀ d ∈ [("show version", (⟨fun _ => AttemptOutcome.success, false, "out", ⟨none, none, none⟩⟩ : TaskEnv)),
            ("display version", (⟨fun _ => AttemptOutcome.authErr, false, "out", ⟨none, none, none⟩⟩ : TaskEnv))],
        (splitCommands d.1).isEmpty = false) ∧
    batchEntries [("show version", ⟨fun _ => AttemptOutcome.success, false, "out", ⟨none, none, none⟩⟩),
                  ("display version", ⟨fun _ => AttemptOutcome.authErr, false, "out", ⟨none, none, none⟩⟩)] = 2 := by
  have hm : ∀ d ∈ [("show version", (⟨fun _ => AttemptOutcome.success, false, "out", ⟨none, none, none⟩⟩ : TaskEnv)),
            ("display version", (⟨fun _ => AttemptOutcome.authErr, false, "out", ⟨none, none, none⟩⟩ : TaskEnv))],
        (splitCommands d.1).isEmpty = false := by
    intro d hd
    rcases List.mem_cons.mp hd with rfl | hd2
    · decide
    rcases List.mem_cons.mp hd2 with rfl | hd3
    · decide
    · cases hd3
  exact ⟨hm, (batch_records_each_device _ hm).trans (by rfl)⟩

/-! ### Atomicity of the result write -/

theorem fsGet_cons_self (fs : List (String × String)) (p v : String) :
    fsGet ((p, v) :: fs) p = some v := by
  simp [fsGet, List.find?_cons]

theorem fsGet_cons_ne (fs : List (String × String)) (p q v : String) (h : p ≠ q) :
    fsGet ((p, v) :: fs) q = fsGet fs q := by
  have hb : (p == q) = false := beq_false_of_ne h
  simp [fsGet, List.find?_cons, hb]

theorem applyOp_create (fs : List (String × String)) (p : String) :
    applyOp fs (FsOp.create p) = (p, "") :: fs := rfl

theorem applyOp_append_some (fs : List (String × String)) (p chunk v : String)
    (h : fsGet fs p = some v) :
    applyOp fs (FsOp.append p chunk) = (p, v ++ chunk) :: fs := by
  show (match fsGet fs p with
        | some v => (p, v ++ chunk) :: fs
        | none => fs) = (p, v ++ chunk) :: fs
  rw [h]

theorem applyOp_append_none (fs : List (String × String)) (p chunk : String)
    (h : fsGet fs p = none) :
    applyOp fs (FsOp.append p chunk) = fs := by
  show (match fsGet fs p with
        | some v => (p, v ++ chunk) :: fs
        | none => fs) = fs
  rw [h]

theorem applyOp_rename_some (fs : List (String × String)) (a b v : String)
    (h : fsGet fs a = some v) :
    applyOp fs (FsOp.rename a b) = (b, v) :: fs.filter (fun q => !(q.1 == a)) := by
  show (match fsGet fs a with
        | some v => (b, v) :: fs.filter (fun q => !(q.1 == a))
        | none => fs) = (b, v) :: fs.filter (fun q => !(q.1 == a))
  rw [h]

theorem runOps_preserves_other (tmp q : String) (hne : tmp ≠ q) :
    ∀ (ops : List FsOp) (fs : List (String × String)),
      (∀ op ∈ ops, opOnPath tmp op) → fsGet (runOps fs ops) q = fsGet fs q := by
  intro ops
  induction ops with
  | nil => intro fs _; rfl
  | cons op rest ih =>
    intro fs h
    have hop := h op (List.mem_cons_self op rest)
    have hstep : fsGet (applyOp fs op) q = fsGet fs q := by
      cases op with
      | create p =>
        have hp : p = tmp := hop
        subst hp
        rw [applyOp_create]
        exact fsGet_cons_ne fs p q "" hne
      | append p chunk =>
        have hp : p = tmp := hop
        subst hp
        cases hg : fsGet fs p with
        | none => rw [applyOp_append_none fs p chunk hg]
        | some v =>
          rw [applyOp_append_some fs p chunk v hg]
          exact fsGet_cons_ne fs p q (v ++ chunk) hne
      | rename a b => exact absurd hop (by simp [opOnPath])
    have hrest := ih (applyOp fs op) (fun x hx => h x (List.mem_cons_of_mem op hx))
    calc fsGet (runOps fs (op :: rest)) q
        = fsGet (runOps (applyOp fs op) rest) q := rfl
      _ = fsGet (applyOp fs op) q := hrest
      _ = fsGet fs q := hstep

theorem runOps_append_content (tmp : String) :
    ∀ (chunks : List String) (fs : List (String × String)) (v : String),
      fsGet fs tmp = some v →
      fsGet (runOps fs (chunks.map (FsOp.append tmp))) tmp = some (v ++ concatChunks chunks) := by
  intro chunks
  induction chunks with
  | nil =>
    intro fs v h
    simpa [runOps, concatChunks] using h
  | cons c cs ih =>
    intro fs v h
    have hstep := applyOp_append_some fs tmp c v h
    have hget : fsGet ((tmp, v ++ c) :: fs) tmp = some (v ++ c) := fsGet_cons_self fs tmp (v ++ c)
    have hrec := ih ((tmp, v ++ c) :: fs) (v ++ c) hget
    calc fsGet (runOps fs ((c :: cs).map (FsOp.append tmp))) tmp
        = fsGet (runOps (applyOp fs (FsOp.append tmp c)) (cs.map (FsOp.append tmp))) tmp := rfl
      _ = fsGet (runOps ((tmp, v ++ c) :: fs) (cs.map (FsOp.append tmp))) tmp := by rw [hstep]
      _ = some ((v ++ c) ++ concatChunks cs) := hrec
      _ = some (v ++ concatChunks (c :: cs)) := by rw [String.append_assoc]; rfl

theorem save_ops_decomp (tmp final : String) (chunks : List String) :
    save_ops tmp final chunks =
      (FsOp.create tmp :: chunks.map (FsOp.append tmp)) ++ [FsOp.rename tmp final] := by
  simp [save_ops]

theorem save_ops_head_onPath (tmp : String) (chunks : List String) :
    ∀ op ∈ FsOp.create tmp :: chunks.map (FsOp.append tmp), opOnPath tmp op := by
  intro op hop
  rcases List.mem_cons.mp hop with rfl | hm
  · rfl
  · obtain ⟨c, _, rfl⟩ := List.mem_map.mp hm
    rfl

/-- Claim C4: for every successful save, the content is written
entirely to a temporary file distinct from the final path and only
the concluding rename publishes it: after every proper prefix of the
operation trace the final path still holds exactly what it held
before the save (in particular never a partial or empty version of
the new content), and after the full trace it holds the complete
content. -/
theorem save_result_atomic (fs0 : List (String × String)) (tmp final : String)
    (chunks : List String) (hne : tmp ≠ final) :
    (∀ k, k < (save_ops tmp final chunks).length →
      fsGet (runOps fs0 ((save_ops tmp final chunks).take k)) final = fsGet fs0 final) ∧
    fsGet (runOps fs0 (save_ops tmp final chunks)) final = some (concatChunks chunks) := by
  have hA : ∀ op ∈ FsOp.create tmp :: chunks.map (FsOp.append tmp), opOnPath tmp op :=
    save_ops_head_onPath tmp chunks
  constructor
  · intro k hk
    have hlen : (save_ops tmp final chunks).length = (chunks.length + 1) + 1 := by
      simp [save_ops]
    have hkA : k ≤ (FsOp.create tmp :: chunks.map (FsOp.append tmp)).length := by
      rw [hlen] at hk
      simp only [List.length_cons, List.length_map]
      omega
    rw [save_ops_decomp, List.take_append_of_le_length hkA]
    exact runOps_preserves_other tmp final hne _ fs0
      (fun op hop => hA op (List.mem_of_mem_take hop))
  · have hcreate : fsGet (applyOp fs0 (FsOp.create tmp)) tmp = some "" := by
      rw [applyOp_create]
      exact fsGet_cons_self fs0 tmp ""
    have hcontent :
        fsGet (runOps (applyOp fs0 (FsOp.create tmp)) (chunks.map (FsOp.append tmp))) tmp =
          some ("" ++ concatChunks chunks) :=
      runOps_append_content tmp chunks _ "" hcreate
    rw [String.empty_append] at hcontent
    have hsplit :
        runOps fs0 (save_ops tmp final chunks) =
          applyOp (runOps (applyOp fs0 (FsOp.create tmp)) (chunks.map (FsOp.append tmp)))
            (FsOp.rename tmp final) := by
      rw [save_ops_decomp]
      show (((FsOp.create tmp :: chunks.map (FsOp.append tmp)) ++
        [FsOp.rename tmp final]).foldl applyOp fs0) = _
      rw [List.foldl_append]
      rfl
    rw [hsplit, applyOp_rename_some _ tmp final (concatChunks chunks) hcontent]
    exact fsGet_cons_self _ final (concatChunks chunks)

/-- Witness for save_result_atomic: a concrete temp name, final name
and two content chunks on an empty file system. -/
theorem save_result_atomic_witness :
    "tmpqz1x2c" ≠ "10.0.0.1_sw1_cisco_cisco_ios.txt" ∧
    ((∀ k, k < (save_ops "tmpqz1x2c" "10.0.0.1_sw1_cisco_cisco_ios.txt" ["=== head ===", "body"]).length →
      fsGet (runOps [] ((save_ops "tmpqz1x2c" "10.0.0.1_sw1_cisco_cisco_ios.txt" ["=== head ===", "body"]).take k))
        "10.0.0.1_sw1_cisco_cisco_ios.txt" = fsGet [] "10.0.0.1_sw1_cisco_cisco_ios.txt") ∧
    fsGet (runOps [] (save_ops "tmpqz1x2c" "10.0.0.1_sw1_cisco_cisco_ios.txt" ["=== head ===", "body"]))
      "10.0.0.1_sw1_cisco_cisco_ios.txt" = some (concatChunks ["=== head ===", "body"])) :=
  ⟨by decide, save_result_atomic [] "tmpqz1x2c" "10.0.0.1_sw1_cisco_cisco_ios.txt"
    ["=== head ===", "body"] (by decide)⟩

/-! ### Properties of sanitize_filename and the result path -/

theorem dropWhile_head_false (p : Char → Bool) :
    ∀ (l : List Char) (c : Char) (t : List Char), l.dropWhile p = c :: t → p c = false := by
  intro l
  induction l with
  | nil => intro c t h; cases h
  | cons a l' ih =>
    intro c t h
    rw [List.dropWhile_cons] at h
    by_cases hp : p a = true
    · rw [if_pos hp] at h
      exact ih c t h
    · rw [if_neg hp] at h
      injection h with h1 h2
      subst h1
      simpa using hp

theorem stripChars_decomp (l : List Char) :
    l.dropWhile isSpace =
      stripChars l ++ ((l.dropWhile isSpace).reverse.takeWhile isSpace).reverse := by
  have h1 := List.takeWhile_append_dropWhile (p := isSpace) (l := (l.dropWhile isSpace).reverse)
  have h2 := congrArg List.reverse h1
  rw [List.reverse_append, List.reverse_reverse] at h2
  exact h2.symm

theorem stripChars_head (l : List Char) (c : Char) (t : List Char)
    (h : stripChars l = c :: t) : isSpace c = false := by
  have hd := stripChars_decomp l
  rw [h, List.cons_append] at hd
  exact dropWhile_head_false isSpace l c _ hd

theorem stripChars_mem (l : List Char) (c : Char) (h : c ∈ stripChars l) : c ∈ l := by
  unfold stripChars at h
  rw [List.mem_reverse] at h
  have h2 : c ∈ (l.dropWhile isSpace).reverse :=
    List.Sublist.mem h (List.dropWhile_sublist _)
  rw [List.mem_reverse] at h2
  exact List.Sublist.mem h2 (List.dropWhile_sublist _)

theorem sanitize_no_banned (name : String) :
    ∀ c ∈ (sanitize_filename name).data, bannedChars.contains c = false := by
  intro c hc
  have h1 : c ∈ stripChars (name.data.filter (fun c => !(bannedChars.contains c))) :=
    List.mem_of_mem_take hc
  have h2 : c ∈ name.data.filter (fun c => !(bannedChars.contains c)) :=
    stripChars_mem _ c h1
  have h3 := List.of_mem_filter h2
  simpa using h3

/-- Counterexample to claim C10 as stated: an input whose interior
whitespace survives the 60-character truncation becomes trailing
whitespace in the output, because the strip happens before the
truncation, not after. -/
theorem sanitize_trailing_ws_counterexample :
    noTrailingWs (sanitize_filename ("a" ++ String.mk (List.replicate 60 ' ') ++ "b")) = false ∧
    sanitize_filename ("a" ++ String.mk (List.replicate 60 ' ') ++ "b") =
      "a" ++ String.mk (List.replicate 59 ' ') := by
  exact ⟨by decide, by decide⟩

/-- Claim C10 (amended): sanitize_filename returns a string that
contains none of the nine banned filename characters, has no leading
whitespace, and has length at most 60; trailing whitespace, however,
can survive when the truncation cuts inside the stripped string.  In
particular the result contains no path separator. -/
theorem sanitize_filename_props (name : String) :
    (∀ c ∈ (sanitize_filename name).data, bannedChars.contains c = false) ∧
    noLeadingWs (sanitize_filename name) = true ∧
    (sanitize_filename name).length ≤ 60 := by
  refine ⟨sanitize_no_banned name, ?_, ?_⟩
  · show noLeadingWs ⟨(stripChars (name.data.filter (fun c => !(bannedChars.contains c)))).take 60⟩ = true
    cases hs : stripChars (name.data.filter (fun c => !(bannedChars.contains c))) with
    | nil => rfl
    | cons c t =>
      have hc : isSpace c = false := stripChars_head _ c t hs
      show noLeadingWs ⟨c :: t.take 59⟩ = true
      simp [noLeadingWs, hc]
  · show ((stripChars (name.data.filter (fun c => !(bannedChars.contains c)))).take 60).length ≤ 60
    rw [List.length_take]
    exact min_le_left _ _

/-- Witness for sanitize_filename_props at a concrete input with a
banned character and surrounding whitespace. -/
theorem sanitize_filename_props_witness :
    'a' ∈ (sanitize_filename " a*b ").data ∧
    bannedChars.contains 'a' = false ∧
    noLeadingWs (sanitize_filename " a*b ") = true ∧
    (sanitize_filename " a*b ").length ≤ 60 :=
  ⟨by decide, (sanitize_filename_props " a*b ").1 'a' (by decide),
   (sanitize_filename_props " a*b ").2.1, (sanitize_filename_props " a*b ").2.2⟩

/-- Counterexample to claim C9 as stated: the hostname component of
the result filename is NOT sanitized — a hostname containing a path
separator puts that separator into the filename, while sanitizing it
would have removed it.  The code only sanitizes the host component. -/
theorem result_filename_unsanitized_hostname_counterexample :
    (result_filename "10.0.0.1" "bad/host" "cisco_ios").data.contains '/' = true ∧
    (sanitize_filename "bad/host").data.contains '/' = false := by
  exact ⟨by decide, by decide⟩

/-- Claim C9 (amended): the output path is
destinationRoot/result_YYYYMMDD/ followed by the filename built from
the sanitized host, the raw (unsanitized) discovered hostname, the
vendor identifier and the canonical device type, ending in .txt; the
vendor and device type are always appended; only the host component
is sanitized (it contains no banned filename character). -/
theorem result_path_format (dest_path date_str ip hostname device_type : String) :
    result_path dest_path date_str ip hostname device_type =
      pathJoin (pathJoin dest_path ("result_" ++ date_str))
        (sanitize_filename ip ++ "_" ++ hostname ++ "_" ++
          get_device_vendor device_type ++ "_" ++ device_type ++ ".txt") ∧
    ∀ c ∈ (sanitize_filename ip).data, bannedChars.contains c = false :=
  ⟨rfl, sanitize_no_banned ip⟩

/-- Witness for result_path_format at concrete arguments. -/
theorem result_path_format_witness :
    result_path "." "20260101" "10.0.0.1" "sw1" "cisco_ios" =
      "./result_20260101/10.0.0.1_sw1_cisco_cisco_ios.txt" ∧
    '1' ∈ (sanitize_filename "10.0.0.1").data ∧
    bannedChars.contains '1' = false := by
  refine ⟨?_, by decide,
    (result_path_format "." "20260101" "10.0.0.1" "sw1" "cisco_ios").2 '1' (by decide)⟩
  have h := (result_path_format "." "20260101" "10.0.0.1" "sw1" "cisco_ios").1
  rw [h]
  decide

/-! ### Device-type resolution order -/

/-- Counterexample to claim C2 as stated: the fallback does not
return the raw string unchanged — it returns the lowercased,
whitespace-stripped form of it, so a raw string with upper-case
letters that matches nothing comes back changed. -/
theorem normalize_fallback_changes_raw_counterexample :
    normalize_device_type demoSupported "Unknown-XYZ" = "unknown-xyz" ∧
    normalize_device_type demoSupported "Unknown-XYZ" ≠ "Unknown-XYZ" := by
  exact ⟨by decide, by decide⟩

/-- Claim C2 (amended): device-type resolution is total and (in this
model, with a fixed enumeration of the supported set) deterministic,
and follows the order: (a) exact match of the lowercased stripped
input against the supported identifiers; (b) alias-table lookup,
accepted only when the alias target is supported; (c) substring
containment match against supported identifiers (returning a
supported identifier); (d) fallback returning the lowercased,
whitespace-stripped raw string, after which execution proceeds with
the default tuning rather than failing. -/
theorem normalize_resolution_order (supported : List String) (raw : String) :
    (pyStrip (pyLower raw) ∈ supported →
      normalize_device_type supported raw = pyStrip (pyLower raw)) ∧
    (pyStrip (pyLower raw) ∉ supported →
      ∀ m, lookupAlias (pyStrip (pyLower raw)) = some m → m ∈ supported →
        normalize_device_type supported raw = m) ∧
    (pyStrip (pyLower raw) ∉ supported →
      (∀ m, lookupAlias (pyStrip (pyLower raw)) = some m → m ∉ supported) →
      ∀ s, fuzzyMatch supported (pyStrip (pyLower raw)) = some s →
        normalize_device_type supported raw = s ∧ s ∈ supported) ∧
    (pyStrip (pyLower raw) ∉ supported →
      (∀ m, lookupAlias (pyStrip (pyLower raw)) = some m → m ∉ supported) →
      fuzzyMatch supported (pyStrip (pyLower raw)) = none →
      normalize_device_type supported raw = pyStrip (pyLower raw)) := by
  refine ⟨?_, ?_, ?_, ?_⟩
  · intro h
    have hc : supported.contains (pyStrip (pyLower raw)) = true := List.elem_iff.mpr h
    simp only [normalize_device_type, hc, if_true]
  · intro h m hm hmem
    have hc : supported.contains (pyStrip (pyLower raw)) = false := by
      rw [← Bool.not_eq_true]
      intro hcc
      exact h (List.elem_iff.mp hcc)
    have hcm : supported.contains m = true := List.elem_iff.mpr hmem
    simp only [normalize_device_type, hc, Bool.false_eq_true, if_false, hm, hcm, if_true]
  · intro h halias s hs
    have hc : supported.contains (pyStrip (pyLower raw)) = false := by
      rw [← Bool.not_eq_true]
      intro hcc
      exact h (List.elem_iff.mp hcc)
    have hmem : s ∈ supported := List.mem_of_find?_eq_some hs
    refine ⟨?_, hmem⟩
    cases ha : lookupAlias (pyStrip (pyLower raw)) with
    | none => simp only [normalize_device_type, hc, Bool.false_eq_true, if_false, ha, hs]
    | some m =>
      have hcm : supported.contains m = false := by
        rw [← Bool.not_eq_true]
        intro hcc
        exact halias m ha (List.elem_iff.mp hcc)
      simp only [normalize_device_type, hc, Bool.false_eq_true, if_false, ha, hcm, hs]
  · intro h halias hfz
    have hc : supported.contains (pyStrip (pyLower raw)) = false := by
      rw [← Bool.not_eq_true]
      intro hcc
      exact h (List.elem_iff.mp hcc)
    cases ha : lookupAlias (pyStrip (pyLower raw)) with
    | none => simp only [normalize_device_type, hc, Bool.false_eq_true, if_false, ha, hfz]
    | some m =>
      have hcm : supported.contains m = false := by
        rw [← Bool.not_eq_true]
        intro hcc
        exact halias m ha (List.elem_iff.mp hcc)
      simp only [normalize_device_type, hc, Bool.false_eq_true, if_false, ha, hcm, hfz]

/-- Witness for normalize_resolution_order: the exact-match arm at a
padded upper-case supported type, and the fallback arm at an unknown
type, on the representative supported list. -/
theorem normalize_resolution_order_witness :
    (pyStrip (pyLower " CISCO_IOS ") ∈ demoSupported ∧
      normalize_device_type demoSupported " CISCO_IOS " = "cisco_ios") ∧
    (pyStrip (pyLower "zzz9") ∉ demoSupported ∧
      fuzzyMatch demoSupported (pyStrip (pyLower "zzz9")) = none ∧
      normalize_device_type demoSupported "zzz9" = "zzz9") := by
  have h1 : pyStrip (pyLower " CISCO_IOS ") ∈ demoSupported := by decide
  have h2 : pyStrip (pyLower "zzz9") ∉ demoSupported := by decide
  have h3 : ∀ m, lookupAlias (pyStrip (pyLower "zzz9")) = some m → m ∉ demoSupported := by
    intro m hm
    have : lookupAlias (pyStrip (pyLower "zzz9")) = none := by decide
    rw [this] at hm
    exact Option.noConfusion hm
  have h4 : fuzzyMatch demoSupported (pyStrip (pyLower "zzz9")) = none := by decide
  refine ⟨⟨h1, ?_⟩, ⟨h2, h4, ?_⟩⟩
  · exact ((normalize_resolution_order demoSupported " CISCO_IOS ").1 h1).trans (by decide)
  · exact ((normalize_resolution_order demoSupported "zzz9").2.2.2 h2 h3 h4).trans (by decide)

/-! ### Redaction: character and keyword lemmas -/

theorem isSpace_cases (c : Char) (h : isSpace c = true) :
    c = ' ' ∨ c = '\t' ∨ c = '\n' ∨ c = '\r' ∨ c = '\x0b' ∨ c = '\x0c' := by
  simp only [isSpace, Bool.or_eq_true, decide_eq_true_eq] at h
  tauto

theorem isSpace_not_keyletter (c : Char) (h : isSpace c = true) :
    Char.toLower c ≠ 'p' ∧ Char.toLower c ≠ 's' := by
  rcases isSpace_cases c h with rfl | rfl | rfl | rfl | rfl | rfl <;>
    exact ⟨by decide, by decide⟩

theorem keywordish_char_facts (K : List Char) (hk : keywordish K) :
    ∀ c ∈ K, isSpace c = false ∧ c ≠ '=' ∧ c ≠ '*' := by
  intro c hc
  have hl : Char.toLower c ∈ pwChars ∨ Char.toLower c ∈ secChars := by
    rcases hk with h | h
    · left; rw [← h]; exact List.mem_map_of_mem _ hc
    · right; rw [← h]; exact List.mem_map_of_mem _ hc
  refine ⟨?_, ?_, ?_⟩
  · by_contra hsp
    have hsp' : isSpace c = true := by
      cases hiv : isSpace c
      · exact absurd hiv hsp
      · rfl
    rcases isSpace_cases c hsp' with rfl | rfl | rfl | rfl | rfl | rfl <;>
      rcases hl with h | h <;> exact absurd h (by decide)
  · rintro rfl
    rcases hl with h | h <;> exact absurd h (by decide)
  · rintro rfl
    rcases hl with h | h <;> exact absurd h (by decide)

theorem keywordish_length (K : List Char) (hk : keywordish K) :
    K.length = 8 ∨ K.length = 6 := by
  rcases hk with h | h
  · left
    have := congrArg List.length h
    simpa using this
  · right
    have := congrArg List.length h
    simpa using this

theorem keywordish_ne_nil (K : List Char) (hk : keywordish K) : K ≠ [] := by
  intro h
  subst h
  rcases keywordish_length [] hk with h | h <;> cases h

theorem stripPrefixCI_some (p : List Char) :
    ∀ (l m r : List Char), stripPrefixCI p l = some (m, r) →
      l = m ++ r ∧ m.map Char.toLower = p := by
  induction p with
  | nil =>
    intro l m r h
    have hdef : stripPrefixCI [] l = some ([], l) := rfl
    rw [hdef] at h
    have h2 := Option.some.inj h
    have hm : ([] : List Char) = m := congrArg Prod.fst h2
    have hr : l = r := congrArg Prod.snd h2
    subst hm
    subst hr
    exact ⟨rfl, rfl⟩
  | cons p0 ps ih =>
    intro l m r h
    cases l with
    | nil => cases h
    | cons c cs =>
      have hdef : stripPrefixCI (p0 :: ps) (c :: cs) =
          if Char.toLower c = p0 then
            match stripPrefixCI ps cs with
            | some (m, r) => some (c :: m, r)
            | none => none
          else none := rfl
      rw [hdef] at h
      by_cases hc : Char.toLower c = p0
      · rw [if_pos hc] at h
        cases hrec : stripPrefixCI ps cs with
        | none =>
          rw [hrec] at h
          cases h
        | some pr =>
          obtain ⟨m', r'⟩ := pr
          rw [hrec] at h
          have h2 := Option.some.inj h
          have hm : c :: m' = m := congrArg Prod.fst h2
          have hr : r' = r := congrArg Prod.snd h2
          subst hm
          subst hr
          obtain ⟨hl, hmap⟩ := ih cs m' r' hrec
          subst hl
          exact ⟨rfl, by rw [List.map_cons, hc, hmap]⟩
      · rw [if_neg hc] at h
        cases h

theorem stripPrefixCI_complete (p : List Char) :
    ∀ (m r : List Char), m.map Char.toLower = p → stripPrefixCI p (m ++ r) = some (m, r) := by
  induction p with
  | nil =>
    intro m r h
    have hm : m = [] := List.map_eq_nil_iff.mp h
    subst hm
    rfl
  | cons p0 ps ih =>
    intro m r h
    cases m with
    | nil => cases h
    | cons c m' =>
      rw [List.map_cons] at h
      injection h with h1 h2
      show stripPrefixCI (p0 :: ps) (c :: (m' ++ r)) = some (c :: m', r)
      have hdef : stripPrefixCI (p0 :: ps) (c :: (m' ++ r)) =
          if Char.toLower c = p0 then
            match stripPrefixCI ps (m' ++ r) with
            | some (m, r) => some (c :: m, r)
            | none => none
          else none := rfl
      rw [hdef, if_pos h1, ih m' r h2]

theorem stripPrefixCI_none_head (p0 : Char) (ps : List Char) (c : Char) (cs : List Char)
    (h : Char.toLower c ≠ p0) : stripPrefixCI (p0 :: ps) (c :: cs) = none := by
  have hdef : stripPrefixCI (p0 :: ps) (c :: cs) =
      if Char.toLower c = p0 then
        match stripPrefixCI ps cs with
        | some (m, r) => some (c :: m, r)
        | none => none
      else none := rfl
  rw [hdef, if_neg h]

theorem matchKeyword_some (l K r : List Char) (h : matchKeyword l = some (K, r)) :
    l = K ++ r ∧ keywordish K := by
  unfold matchKeyword at h
  cases hp : stripPrefixCI pwChars l with
  | some pr =>
    obtain ⟨m, r'⟩ := pr
    rw [hp] at h
    have h2 := Option.some.inj h
    obtain ⟨hl, hmap⟩ := stripPrefixCI_some pwChars l m r' hp
    have hm : m = K := congrArg Prod.fst h2
    have hr : r' = r := congrArg Prod.snd h2
    rw [hm, hr] at hl
    rw [hm] at hmap
    exact ⟨hl, Or.inl hmap⟩
  | none =>
    rw [hp] at h
    obtain ⟨hl, hmap⟩ := stripPrefixCI_some secChars l K r h
    exact ⟨hl, Or.inr hmap⟩

theorem matchKeyword_complete (K r : List Char) (hk : keywordish K) :
    matchKeyword (K ++ r) = some (K, r) := by
  rcases hk with h | h
  · unfold matchKeyword
    rw [stripPrefixCI_complete pwChars K r h]
  · have hK : ∃ c0 K', K = c0 :: K' ∧ Char.toLower c0 = 's' := by
      cases K with
      | nil => cases h
      | cons c0 K' =>
        rw [List.map_cons] at h
        injection h with h1 h2
        exact ⟨c0, K', rfl, h1⟩
    obtain ⟨c0, K', rfl, hc0⟩ := hK
    unfold matchKeyword
    have hpw : stripPrefixCI pwChars ((c0 :: K') ++ r) = none := by
      show stripPrefixCI ('p' :: ['a', 's', 's', 'w', 'o', 'r', 'd']) (c0 :: (K' ++ r)) = none
      exact stripPrefixCI_none_head 'p' _ c0 _ (by rw [hc0]; decide)
    rw [hpw]
    exact stripPrefixCI_complete secChars (c0 :: K') r h

theorem matchKeyword_none_head (c : Char) (t : List Char)
    (h1 : Char.toLower c ≠ 'p') (h2 : Char.toLower c ≠ 's') : matchKeyword (c :: t) = none := by
  unfold matchKeyword
  have hpw : stripPrefixCI pwChars (c :: t) = none :=
    stripPrefixCI_none_head 'p' _ c t h1
  have hsec : stripPrefixCI secChars (c :: t) = none :=
    stripPrefixCI_none_head 's' _ c t h2
  rw [hpw, hsec]

theorem matchKeyword_none_two (d0 d1 : Char) (rest : List Char)
    (h0 : Char.toLower d0 = 's') (h1 : Char.toLower d1 ≠ 'e') :
    matchKeyword (d0 :: d1 :: rest) = none := by
  unfold matchKeyword
  have hpw : stripPrefixCI pwChars (d0 :: d1 :: rest) = none :=
    stripPrefixCI_none_head 'p' _ d0 _ (by rw [h0]; decide)
  rw [hpw]
  have hdef : stripPrefixCI secChars (d0 :: d1 :: rest) =
      if Char.toLower d0 = 's' then
        match stripPrefixCI ['e', 'c', 'r', 'e', 't'] (d1 :: rest) with
        | some (m, r) => some (d0 :: m, r)
        | none => none
      else none := rfl
  rw [hdef, if_pos h0, stripPrefixCI_none_head 'e' _ d1 _ h1]

/-! ### Redaction: whitespace scanning lemmas -/

theorem dropWhile_allSpace (S : List Char) (w : List Char) (h : allSpaceL S) :
    (S ++ w).dropWhile isSpace = w.dropWhile isSpace := by
  induction S with
  | nil => rfl
  | cons a S' ih =>
    have ha : isSpace a = true := h a (List.mem_cons_self a S')
    rw [List.cons_append, List.dropWhile_cons, if_pos ha]
    exact ih (fun x hx => h x (List.mem_cons_of_mem a hx))

theorem dropWhile_cons_neg (p : Char → Bool) (c : Char) (t : List Char) (h : p c = false) :
    (c :: t).dropWhile p = c :: t := by
  rw [List.dropWhile_cons, if_neg (by simp [h])]

theorem takeWhile_cons_pos (p : Char → Bool) (c : Char) (t : List Char) (h : p c = true) :
    (c :: t).takeWhile p = c :: t.takeWhile p := by
  rw [List.takeWhile_cons, if_pos h]

theorem takeWhile_cons_neg (p : Char → Bool) (c : Char) (t : List Char) (h : p c = false) :
    (c :: t).takeWhile p = [] := by
  rw [List.takeWhile_cons, if_neg (by simp [h])]

theorem takeWhile_hwe (W : List Char) (h : headWsOrEmpty W) :
    W.takeWhile notSpace = [] ∧ W.dropWhile notSpace = W := by
  cases W with
  | nil => exact ⟨rfl, rfl⟩
  | cons c t =>
    have hc : isSpace c = true := h
    have hns : notSpace c = false := by simp [notSpace, hc]
    exact ⟨takeWhile_cons_neg notSpace c t hns, dropWhile_cons_neg notSpace c t hns⟩

theorem hwe_dropWhile_notSpace (l : List Char) : headWsOrEmpty (l.dropWhile notSpace) := by
  cases hd : l.dropWhile notSpace with
  | nil => trivial
  | cons c t =>
    have hns := dropWhile_head_false notSpace l c t hd
    show isSpace c = true
    cases hiv : isSpace c
    · rw [show notSpace c = true from by simp [notSpace, hiv]] at hns
      cases hns
    · rfl

theorem allSpace_append (A B : List Char) (hA : allSpaceL A) (hB : allSpaceL B) :
    allSpaceL (A ++ B) := by
  intro c hc
  rcases List.mem_append.mp hc with h | h
  · exact hA c h
  · exact hB c h

theorem allSpace_takeWhile (l : List Char) : allSpaceL (l.takeWhile isSpace) :=
  fun _ hc => List.mem_takeWhile_imp hc

theorem noSpace_takeWhile (l : List Char) : noSpaceL (l.takeWhile notSpace) := by
  intro c hc
  have := List.mem_takeWhile_imp hc
  cases hiv : isSpace c
  · rfl
  · rw [show notSpace c = false from by simp [notSpace, hiv]] at this
    cases this

/-! ### Redaction: parse shape lemmas -/

theorem parseAfterKey_some (r v rest : List Char) (h : parseAfterKey r = some (v, rest)) :
    v ≠ [] ∧ noSpaceL v ∧ headWsOrEmpty rest ∧
    ∃ S1 S2, allSpaceL S1 ∧ allSpaceL S2 ∧ r = S1 ++ '=' :: (S2 ++ (v ++ rest)) := by
  unfold parseAfterKey at h
  by_cases h1 : (r.dropWhile isSpace).head? = some '='
  case neg => rw [if_neg h1] at h; cases h
  rw [if_pos h1] at h
  by_cases h2 : ((((r.dropWhile isSpace).tail).dropWhile isSpace).takeWhile notSpace).isEmpty = true
  · rw [if_pos h2] at h
    cases h
  · rw [if_neg h2] at h
    have h3 := Option.some.inj h
    have hv : (((r.dropWhile isSpace).tail).dropWhile isSpace).takeWhile notSpace = v :=
      congrArg Prod.fst h3
    have hrest : (((r.dropWhile isSpace).tail).dropWhile isSpace).dropWhile notSpace = rest :=
      congrArg Prod.snd h3
    have hvne : v ≠ [] := by
      rw [← hv]
      intro hcontra
      rw [hcontra] at h2
      exact h2 rfl
    have hvns : noSpaceL v := by
      rw [← hv]
      exact noSpace_takeWhile _
    have hrw : headWsOrEmpty rest := by
      rw [← hrest]
      exact hwe_dropWhile_notSpace _
    have hcons : ∃ t, r.dropWhile isSpace = '=' :: t := by
      cases hd : r.dropWhile isSpace with
      | nil => rw [hd] at h1; cases h1
      | cons a t =>
        rw [hd] at h1
        have ha : a = '=' := Option.some.inj h1
        subst ha
        exact ⟨t, rfl⟩
    obtain ⟨t, ht⟩ := hcons
    have htail : (r.dropWhile isSpace).tail = t := by rw [ht]; rfl
    refine ⟨hvne, hvns, hrw, r.takeWhile isSpace, t.takeWhile isSpace, allSpace_takeWhile r,
      allSpace_takeWhile _, ?_⟩
    have hsplit1 : r = r.takeWhile isSpace ++ ('=' :: t) := by
      conv_lhs => rw [← List.takeWhile_append_dropWhile (p := isSpace) (l := r)]
      rw [ht]
    have hX : t.dropWhile isSpace = v ++ rest := by
      rw [← hv, ← hrest, htail]
      exact (List.takeWhile_append_dropWhile (p := notSpace)
        (l := t.dropWhile isSpace)).symm
    have hsplit2 : t = t.takeWhile isSpace ++ (v ++ rest) := by
      conv_lhs => rw [← List.takeWhile_append_dropWhile (p := isSpace) (l := t)]
      rw [hX]
    rw [← hsplit2]
    exact hsplit1

theorem parseAfterKey_build (S1 S2 : List Char) (d : Char) (z : List Char)
    (h1 : allSpaceL S1) (h2 : allSpaceL S2) (hd : isSpace d = false) :
    parseAfterKey (S1 ++ '=' :: (S2 ++ d :: z)) =
      some (d :: z.takeWhile notSpace, z.dropWhile notSpace) := by
  unfold parseAfterKey
  have e1 : (S1 ++ '=' :: (S2 ++ d :: z)).dropWhile isSpace = '=' :: (S2 ++ d :: z) := by
    rw [dropWhile_allSpace S1 _ h1]
    exact dropWhile_cons_neg isSpace '=' _ (by decide)
  rw [e1]
  have hcond : (('=' : Char) :: (S2 ++ d :: z)).head? = some '=' := rfl
  rw [if_pos hcond]
  have e2 : ((('=' : Char) :: (S2 ++ d :: z)).tail) = S2 ++ d :: z := rfl
  rw [e2]
  have e3 : (S2 ++ d :: z).dropWhile isSpace = d :: z := by
    rw [dropWhile_allSpace S2 _ h2]
    exact dropWhile_cons_neg isSpace d z hd
  rw [e3]
  have hnd : notSpace d = true := by simp [notSpace, hd]
  rw [takeWhile_cons_pos notSpace d z hnd]
  rw [if_neg (by simp)]
  rw [List.dropWhile_cons, if_pos hnd]

/-! ### Redaction: tryMatch lemmas and scan equations -/

theorem tryMatch_nil : tryMatch [] = none := rfl

theorem tryMatch_keyword_none (l : List Char) (h : matchKeyword l = none) :
    tryMatch l = none := by
  unfold tryMatch
  rw [h]
  rfl

theorem tryMatch_none_head (c : Char) (t : List Char)
    (h1 : Char.toLower c ≠ 'p') (h2 : Char.toLower c ≠ 's') : tryMatch (c :: t) = none :=
  tryMatch_keyword_none _ (matchKeyword_none_head c t h1 h2)

theorem tryMatch_none_of_space (c : Char) (t : List Char) (h : isSpace c = true) :
    tryMatch (c :: t) = none := by
  obtain ⟨h1, h2⟩ := isSpace_not_keyletter c h
  exact tryMatch_none_head c t h1 h2

theorem tryMatch_some (l K V R : List Char) (h : tryMatch l = some (K, V, R)) :
    ∃ r, matchKeyword l = some (K, r) ∧ parseAfterKey r = some (V, R) := by
  unfold tryMatch at h
  cases hk : matchKeyword l with
  | none =>
    rw [hk] at h
    cases h
  | some kr =>
    obtain ⟨k, r⟩ := kr
    rw [hk] at h
    rw [Option.some_bind] at h
    cases hp : parseAfterKey r with
    | none =>
      rw [hp] at h
      cases h
    | some vr =>
      obtain ⟨v, rest⟩ := vr
      rw [hp] at h
      rw [Option.map_some'] at h
      have h3 := Option.some.inj h
      have hk1 : k = K := congrArg (fun x => x.1) h3
      have hv1 : v = V := congrArg (fun x => x.2.1) h3
      have hr1 : rest = R := congrArg (fun x => x.2.2) h3
      subst hk1
      subst hv1
      subst hr1
      exact ⟨r, rfl, hp⟩

theorem tryMatch_build (K S1 S2 : List Char) (d : Char) (z : List Char)
    (hk : keywordish K) (h1 : allSpaceL S1) (h2 : allSpaceL S2) (hd : isSpace d = false) :
    tryMatch (K ++ (S1 ++ '=' :: (S2 ++ d :: z))) =
      some (K, d :: z.takeWhile notSpace, z.dropWhile notSpace) := by
  unfold tryMatch
  rw [matchKeyword_complete K _ hk, Option.some_bind,
    parseAfterKey_build S1 S2 d z h1 h2 hd, Option.map_some']

theorem tryMatch_shape (l K V R : List Char) (h : tryMatch l = some (K, V, R)) :
    keywordish K ∧ V ≠ [] ∧ noSpaceL V ∧ headWsOrEmpty R ∧
    ∃ S1 S2, allSpaceL S1 ∧ allSpaceL S2 ∧ l = K ++ (S1 ++ '=' :: (S2 ++ (V ++ R))) := by
  obtain ⟨r, hk, hp⟩ := tryMatch_some l K V R h
  obtain ⟨hl, hkw⟩ := matchKeyword_some l K r hk
  obtain ⟨hvne, hvns, hrw, S1, S2, hS1, hS2, hreq⟩ := parseAfterKey_some r V R hp
  exact ⟨hkw, hvne, hvns, hrw, S1, S2, hS1, hS2, by rw [hl, hreq]⟩

theorem tryMatch_block (K W : List Char) (hk : keywordish K) (hw : headWsOrEmpty W) :
    tryMatch (K ++ '=' :: '*' :: '*' :: '*' :: W) = some (K, ['*', '*', '*'], W) := by
  have hb := tryMatch_build K [] [] '*' ('*' :: '*' :: W) hk
    (fun c hc => absurd hc (List.not_mem_nil c))
    (fun c hc => absurd hc (List.not_mem_nil c)) (by decide)
  obtain ⟨ht, hdw⟩ := takeWhile_hwe W hw
  rw [List.nil_append] at hb
  have harg : (('=' : Char) :: ([] ++ '*' :: ('*' :: '*' :: W))) = '=' :: '*' :: '*' :: '*' :: W := by
    rw [List.nil_append]
  rw [harg] at hb
  rw [hb]
  have htw : ('*' :: '*' :: W).takeWhile notSpace = ['*', '*'] := by
    rw [takeWhile_cons_pos notSpace '*' _ (by decide),
      takeWhile_cons_pos notSpace '*' _ (by decide), ht]
  have hdw2 : ('*' :: '*' :: W).dropWhile notSpace = W := by
    rw [List.dropWhile_cons, if_pos (by decide), List.dropWhile_cons, if_pos (by decide), hdw]
  rw [htw, hdw2]

theorem tryMatch_rest_lt (l K V R : List Char) (h : tryMatch l = some (K, V, R)) :
    R.length < l.length := by
  obtain ⟨hkw, hV, _, _, S1, S2, _, _, hl⟩ := tryMatch_shape l K V R h
  have hKlen : 0 < K.length := by
    rcases keywordish_length K hkw with h' | h' <;> omega
  have hVlen : 0 < V.length := List.length_pos.mpr hV
  have hlen := congrArg List.length hl
  simp only [List.length_append, List.length_cons] at hlen
  omega

theorem redactFuel_nil (fuel : Nat) : redactFuel fuel [] = [] := by
  cases fuel with
  | zero => rfl
  | succ f => rfl

theorem redactFuel_succ_some (fuel : Nat) (l K V R : List Char)
    (h : tryMatch l = some (K, V, R)) :
    redactFuel (fuel + 1) l = K ++ '=' :: '*' :: '*' :: '*' :: redactFuel fuel R := by
  cases l with
  | nil =>
    rw [tryMatch_nil] at h
    cases h
  | cons c t =>
    rw [redactFuel.eq_3, h]

theorem redactFuel_succ_none_cons (fuel : Nat) (c : Char) (t : List Char)
    (h : tryMatch (c :: t) = none) :
    redactFuel (fuel + 1) (c :: t) = c :: redactFuel fuel t := by
  rw [redactFuel.eq_3, h]

theorem redactFuel_mono (f1 : Nat) :
    ∀ (f2 : Nat) (l : List Char), l.length ≤ f1 → l.length ≤ f2 →
      redactFuel f1 l = redactFuel f2 l := by
  induction f1 with
  | zero =>
    intro f2 l hl1 _
    have : l = [] := List.length_eq_zero.mp (Nat.le_zero.mp hl1)
    subst this
    rw [redactFuel_nil, redactFuel_nil]
  | succ f1' ih =>
    intro f2 l hl1 hl2
    cases l with
    | nil => rw [redactFuel_nil, redactFuel_nil]
    | cons c t =>
      have hf2 : ∃ f2', f2 = f2' + 1 := by
        cases f2 with
        | zero => simp at hl2
        | succ f2' => exact ⟨f2', rfl⟩
      obtain ⟨f2', rfl⟩ := hf2
      simp only [List.length_cons] at hl1 hl2
      cases hm : tryMatch (c :: t) with
      | some kvr =>
        obtain ⟨K, V, R⟩ := kvr
        rw [redactFuel_succ_some f1' _ K V R hm, redactFuel_succ_some f2' _ K V R hm]
        have hlt := tryMatch_rest_lt _ K V R hm
        simp only [List.length_cons] at hlt
        rw [ih f2' R (by omega) (by omega)]
      | none =>
        rw [redactFuel_succ_none_cons f1' c t hm, redactFuel_succ_none_cons f2' c t hm]
        rw [ih f2' t (by omega) (by omega)]

theorem redactList_nil : redactList [] = [] := rfl

theorem redactList_some (l K V R : List Char) (h : tryMatch l = some (K, V, R)) :
    redactList l = K ++ '=' :: '*' :: '*' :: '*' :: redactList R := by
  cases l with
  | nil =>
    rw [tryMatch_nil] at h
    cases h
  | cons c t =>
    show redactFuel (c :: t).length (c :: t) = _
    rw [show (c :: t).length = t.length + 1 from rfl]
    rw [redactFuel_succ_some t.length _ K V R h]
    have hlt := tryMatch_rest_lt _ K V R h
    simp only [List.length_cons] at hlt
    rw [redactFuel_mono t.length R.length R (by omega) (le_refl _)]
    rfl

theorem redactList_none_cons (c : Char) (t : List Char) (h : tryMatch (c :: t) = none) :
    redactList (c :: t) = c :: redactList t := by
  show redactFuel (c :: t).length (c :: t) = _
  rw [show (c :: t).length = t.length + 1 from rfl]
  rw [redactFuel_succ_none_cons t.length c t h]
  rfl

theorem redactList_hwe (l : List Char) (h : headWsOrEmpty l) :
    headWsOrEmpty (redactList l) := by
  cases l with
  | nil => rw [redactList_nil]; trivial
  | cons c t =>
    have hc : isSpace c = true := h
    rw [redactList_none_cons c t (tryMatch_none_of_space c t hc)]
    exact hc

/-! ### Redaction: suffix enumeration and position lemmas -/

theorem suffix_append_split {α : Type} (l A B : List α) (h : l <:+ A ++ B) :
    l <:+ B ∨ ∃ A', A' <:+ A ∧ l = A' ++ B := by
  induction A with
  | nil =>
    left
    simpa using h
  | cons x A' ih =>
    rw [List.cons_append, List.suffix_cons_iff] at h
    rcases h with rfl | h2
    · right
      exact ⟨x :: A', List.suffix_refl _, by rw [List.cons_append]⟩
    · rcases ih h2 with hB | ⟨A'', hA'', rfl⟩
      · left
        exact hB
      · right
        exact ⟨A'', hA''.trans (List.suffix_cons x A'), rfl⟩

theorem pw_suffix_enum (s : List Char) (h : s <:+ pwChars) :
    s = pwChars ∨ s = ['a', 's', 's', 'w', 'o', 'r', 'd'] ∨ s = ['s', 's', 'w', 'o', 'r', 'd'] ∨
    s = ['s', 'w', 'o', 'r', 'd'] ∨ s = ['w', 'o', 'r', 'd'] ∨ s = ['o', 'r', 'd'] ∨
    s = ['r', 'd'] ∨ s = ['d'] ∨ s = [] := by
  have h' : s <:+ 'p' :: 'a' :: 's' :: 's' :: 'w' :: 'o' :: 'r' :: 'd' :: [] := h
  rcases List.suffix_cons_iff.mp h' with heq | h'
  · exact Or.inl heq
  rcases List.suffix_cons_iff.mp h' with heq | h'
  · exact Or.inr (Or.inl heq)
  rcases List.suffix_cons_iff.mp h' with heq | h'
  · exact Or.inr (Or.inr (Or.inl heq))
  rcases List.suffix_cons_iff.mp h' with heq | h'
  · exact Or.inr (Or.inr (Or.inr (Or.inl heq)))
  rcases List.suffix_cons_iff.mp h' with heq | h'
  · exact Or.inr (Or.inr (Or.inr (Or.inr (Or.inl heq))))
  rcases List.suffix_cons_iff.mp h' with heq | h'
  · exact Or.inr (Or.inr (Or.inr (Or.inr (Or.inr (Or.inl heq)))))
  rcases List.suffix_cons_iff.mp h' with heq | h'
  · exact Or.inr (Or.inr (Or.inr (Or.inr (Or.inr (Or.inr (Or.inl heq))))))
  rcases List.suffix_cons_iff.mp h' with heq | h'
  · exact Or.inr (Or.inr (Or.inr (Or.inr (Or.inr (Or.inr (Or.inr (Or.inl heq)))))))
  exact Or.inr (Or.inr (Or.inr (Or.inr (Or.inr (Or.inr (Or.inr (Or.inr (List.suffix_nil.mp h'))))))))

theorem sec_suffix_enum (s : List Char) (h : s <:+ secChars) :
    s = secChars ∨ s = ['e', 'c', 'r', 'e', 't'] ∨ s = ['c', 'r', 'e', 't'] ∨
    s = ['r', 'e', 't'] ∨ s = ['e', 't'] ∨ s = ['t'] ∨ s = [] := by
  have h' : s <:+ 's' :: 'e' :: 'c' :: 'r' :: 'e' :: 't' :: [] := h
  rcases List.suffix_cons_iff.mp h' with heq | h'
  · exact Or.inl heq
  rcases List.suffix_cons_iff.mp h' with heq | h'
  · exact Or.inr (Or.inl heq)
  rcases List.suffix_cons_iff.mp h' with heq | h'
  · exact Or.inr (Or.inr (Or.inl heq))
  rcases List.suffix_cons_iff.mp h' with heq | h'
  · exact Or.inr (Or.inr (Or.inr (Or.inl heq)))
  rcases List.suffix_cons_iff.mp h' with heq | h'
  · exact Or.inr (Or.inr (Or.inr (Or.inr (Or.inl heq))))
  rcases List.suffix_cons_iff.mp h' with heq | h'
  · exact Or.inr (Or.inr (Or.inr (Or.inr (Or.inr (Or.inl heq)))))
  exact Or.inr (Or.inr (Or.inr (Or.inr (Or.inr (Or.inr (List.suffix_nil.mp h'))))))

theorem map_toLower_cons (a' : List Char) (x : Char) (S : List Char)
    (h : a'.map Char.toLower = x :: S) :
    ∃ d t, a' = d :: t ∧ Char.toLower d = x ∧ t.map Char.toLower = S := by
  cases a' with
  | nil => cases h
  | cons d t =>
    rw [List.map_cons] at h
    injection h with h1 h2
    exact ⟨d, t, rfl, h1, h2⟩

theorem kw_proper_suffix_none (K a' : List Char) (hk : keywordish K)
    (hs : a' <:+ K) (hne : a' ≠ K) (z : List Char) :
    matchKeyword (a' ++ '=' :: z) = none := by
  have hmap : a'.map Char.toLower <:+ K.map Char.toLower := hs.map Char.toLower
  have hlen : a'.length < K.length := by
    rcases Nat.lt_or_ge a'.length K.length with h | h
    · exact h
    · exact absurd (List.IsSuffix.eq_of_length hs
        (Nat.le_antisymm hs.length_le h)) hne
  rcases hk with hK | hK
  · rw [hK] at hmap
    rcases pw_suffix_enum _ hmap with h | h | h | h | h | h | h | h | h
    · exfalso
      have h1 := congrArg List.length h
      have h2 := congrArg List.length hK
      simp only [List.length_map] at h1 h2
      rw [show pwChars.length = 8 from rfl] at h1 h2
      omega
    · obtain ⟨d, t, rfl, hd, _⟩ := map_toLower_cons a' 'a' _ h
      exact matchKeyword_none_head d _ (by rw [hd]; decide) (by rw [hd]; decide)
    · obtain ⟨d0, t0, rfl, hd0, h'⟩ := map_toLower_cons a' 's' _ h
      obtain ⟨d1, t1, rfl, hd1, _⟩ := map_toLower_cons t0 's' _ h'
      exact matchKeyword_none_two d0 d1 _ hd0 (by rw [hd1]; decide)
    · obtain ⟨d0, t0, rfl, hd0, h'⟩ := map_toLower_cons a' 's' _ h
      obtain ⟨d1, t1, rfl, hd1, _⟩ := map_toLower_cons t0 'w' _ h'
      exact matchKeyword_none_two d0 d1 _ hd0 (by rw [hd1]; decide)
    · obtain ⟨d, t, rfl, hd, _⟩ := map_toLower_cons a' 'w' _ h
      exact matchKeyword_none_head d _ (by rw [hd]; decide) (by rw [hd]; decide)
    · obtain ⟨d, t, rfl, hd, _⟩ := map_toLower_cons a' 'o' _ h
      exact matchKeyword_none_head d _ (by rw [hd]; decide) (by rw [hd]; decide)
    · obtain ⟨d, t, rfl, hd, _⟩ := map_toLower_cons a' 'r' _ h
      exact matchKeyword_none_head d _ (by rw [hd]; decide) (by rw [hd]; decide)
    · obtain ⟨d, t, rfl, hd, _⟩ := map_toLower_cons a' 'd' _ h
      exact matchKeyword_none_head d _ (by rw [hd]; decide) (by rw [hd]; decide)
    · have ha : a' = [] := List.map_eq_nil_iff.mp h
      subst ha
      exact matchKeyword_none_head '=' z (by decide) (by decide)
  · rw [hK] at hmap
    rcases sec_suffix_enum _ hmap with h | h | h | h | h | h | h
    · exfalso
      have h1 := congrArg List.length h
      have h2 := congrArg List.length hK
      simp only [List.length_map] at h1 h2
      rw [show secChars.length = 6 from rfl] at h1 h2
      omega
    · obtain ⟨d, t, rfl, hd, _⟩ := map_toLower_cons a' 'e' _ h
      exact matchKeyword_none_head d _ (by rw [hd]; decide) (by rw [hd]; decide)
    · obtain ⟨d, t, rfl, hd, _⟩ := map_toLower_cons a' 'c' _ h
      exact matchKeyword_none_head d _ (by rw [hd]; decide) (by rw [hd]; decide)
    · obtain ⟨d, t, rfl, hd, _⟩ := map_toLower_cons a' 'r' _ h
      exact matchKeyword_none_head d _ (by rw [hd]; decide) (by rw [hd]; decide)
    · obtain ⟨d, t, rfl, hd, _⟩ := map_toLower_cons a' 'e' _ h
      exact matchKeyword_none_head d _ (by rw [hd]; decide) (by rw [hd]; decide)
    · obtain ⟨d, t, rfl, hd, _⟩ := map_toLower_cons a' 't' _ h
      exact matchKeyword_none_head d _ (by rw [hd]; decide) (by rw [hd]; decide)
    · have ha : a' = [] := List.map_eq_nil_iff.mp h
      subst ha
      exact matchKeyword_none_head '=' z (by decide) (by decide)

theorem kw_append_kw_absurd (K k B : List Char) (hK : keywordish K) (hk : keywordish k)
    (hB : B ≠ []) (heq : K = B ++ k) : False := by
  have hlenK := keywordish_length K hK
  have hlenk := keywordish_length k hk
  have hlenB : 0 < B.length := List.length_pos.mpr hB
  have hlen := congrArg List.length heq
  rw [List.length_append] at hlen
  have hB2 : B.length = 2 ∧ K.length = 8 ∧ k.length = 6 := by
    rcases hlenK with h1 | h1 <;> rcases hlenk with h2 | h2 <;> omega
  obtain ⟨hB2, hK8, hk6⟩ := hB2
  have hKpw : K.map Char.toLower = pwChars := by
    rcases hK with h | h
    · exact h
    · have := congrArg List.length h
      simp only [List.length_map] at this
      rw [show secChars.length = 6 from rfl] at this
      omega
  have hksec : k.map Char.toLower = secChars := by
    rcases hk with h | h
    · have := congrArg List.length h
      simp only [List.length_map] at this
      rw [show pwChars.length = 8 from rfl] at this
      omega
    · exact h
  have hmap : pwChars = B.map Char.toLower ++ secChars := by
    rw [← hKpw, ← hksec, heq, List.map_append]
  have hmlen : (B.map Char.toLower).length = 2 := by
    rw [List.length_map, hB2]
  have hdrop := congrArg (List.drop 2) hmap
  rw [show (2 : Nat) = (B.map Char.toLower).length from hmlen.symm] at hdrop
  rw [List.drop_left] at hdrop
  rw [hmlen] at hdrop
  exact absurd hdrop (by decide)

theorem last_append_absurd (B k K S1 : List Char) (hk : keywordish k)
    (hS1 : allSpaceL S1) (hS1ne : S1 ≠ []) (heq : B ++ k = K ++ S1) : False := by
  obtain ⟨k', kl, hkeq⟩ : ∃ k' kl, k = k' ++ [kl] := by
    rcases List.eq_nil_or_concat k with h | ⟨k', kl, h⟩
    · exact absurd h (keywordish_ne_nil k hk)
    · exact ⟨k', kl, by rw [h, List.concat_eq_append]⟩
  obtain ⟨S1', sl, hseq⟩ : ∃ S1' sl, S1 = S1' ++ [sl] := by
    rcases List.eq_nil_or_concat S1 with h | ⟨S1', sl, h⟩
    · exact absurd h hS1ne
    · exact ⟨S1', sl, by rw [h, List.concat_eq_append]⟩
  rw [hkeq, hseq] at heq
  rw [← List.append_assoc, ← List.append_assoc] at heq
  obtain ⟨-, h2⟩ := List.append_inj' heq rfl
  have hkl : kl = sl := by injection h2
  have hklmem : kl ∈ k := by
    rw [hkeq]
    exact List.mem_append_right k' (List.mem_singleton.mpr rfl)
  have hslmem : sl ∈ S1 := by
    rw [hseq]
    exact List.mem_append_right S1' (List.mem_singleton.mpr rfl)
  have h3 := (keywordish_char_facts k hk kl hklmem).1
  have h4 := hS1 sl hslmem
  rw [hkl, h4] at h3
  cases h3

theorem bk_eq_kw_spaces_absurd (B k K S1 : List Char) (hK : keywordish K)
    (hk : keywordish k) (hB : B ≠ []) (hS1 : allSpaceL S1)
    (heq : B ++ k = K ++ S1) : False := by
  cases hS1e : S1 with
  | nil =>
    subst hS1e
    rw [List.append_nil] at heq
    exact kw_append_kw_absurd K k B hK hk hB heq.symm
  | cons s0 S1' =>
    exact last_append_absurd B k K S1 hk hS1 (by rw [hS1e]; simp) heq

/-! ### Redaction: first-match decomposition of the scan -/

theorem first_match_decomp (t : List Char) :
    redactList t = t ∨
    ∃ a k ws1 ws2 v rest, keywordish k ∧ allSpaceL ws1 ∧ allSpaceL ws2 ∧
      v ≠ [] ∧ noSpaceL v ∧ headWsOrEmpty rest ∧
      t = a ++ (k ++ (ws1 ++ '=' :: (ws2 ++ (v ++ rest)))) ∧
      redactList t = a ++ (k ++ '=' :: '*' :: '*' :: '*' :: redactList rest) := by
  induction t with
  | nil => exact Or.inl rfl
  | cons c t' ih =>
    cases hm : tryMatch (c :: t') with
    | some kvr =>
      obtain ⟨K, V, R⟩ := kvr
      right
      obtain ⟨hkw, hVne, hVns, hRw, S1, S2, hS1, hS2, hteq⟩ := tryMatch_shape _ K V R hm
      refine ⟨[], K, S1, S2, V, R, hkw, hS1, hS2, hVne, hVns, hRw, ?_, ?_⟩
      · rw [List.nil_append]
        exact hteq
      · rw [List.nil_append]
        exact redactList_some _ K V R hm
    | none =>
      rcases ih with heq | ⟨a, k, ws1, ws2, v, rest, hkw, h1, h2, hv, hns, hwe, hteq, hred⟩
      · left
        rw [redactList_none_cons c t' hm, heq]
      · right
        refine ⟨c :: a, k, ws1, ws2, v, rest, hkw, h1, h2, hv, hns, hwe, ?_, ?_⟩
        · rw [List.cons_append, ← hteq]
        · rw [List.cons_append, ← hred]
          exact redactList_none_cons c t' hm

/-! ### Redaction: a verbatim character cannot create a new match -/

theorem tryMatch_none_redact (c : Char) (t : List Char)
    (hnone : tryMatch (c :: t) = none) : tryMatch (c :: redactList t) = none := by
  rcases first_match_decomp t with heq |
    ⟨a, k, ws1, ws2, v, rest, hkw, hws1, hws2, hvne, hvns, hwe, hteq, hred⟩
  · rw [heq]
    exact hnone
  rw [hred]
  cases hy : tryMatch (c :: (a ++ (k ++ '=' :: '*' :: '*' :: '*' :: redactList rest))) with
  | none => rfl
  | some KVR =>
    exfalso
    obtain ⟨K, V, R⟩ := KVR
    obtain ⟨hKkw, hVne, hVns, hRw, S1, S2, hS1, hS2, hyeq⟩ := tryMatch_shape _ K V R hy
    have hyeq' : ((c :: a) ++ k) ++ ('=' :: '*' :: '*' :: '*' :: redactList rest) =
        K ++ (S1 ++ '=' :: (S2 ++ (V ++ R))) := by
      rw [← hyeq]
      simp [List.cons_append, List.append_assoc]
    have hxnorm : c :: t = ((c :: a) ++ k) ++ (ws1 ++ '=' :: (ws2 ++ (v ++ rest))) := by
      rw [hteq]
      simp [List.cons_append, List.append_assoc]
    rcases List.append_eq_append_iff.mp hyeq' with ⟨e, he1, he2⟩ | ⟨e, he1, he2⟩
    · -- the parse keyword would extend beyond the replacement keyword
      cases e with
      | nil =>
        rw [List.append_nil] at he1
        exact kw_append_kw_absurd K k (c :: a) hKkw hkw (by simp) he1
      | cons e0 e' =>
        rw [List.cons_append] at he2
        injection he2 with hz _
        have hmem : e0 ∈ K := by
          rw [he1]
          exact List.mem_append_right _ (List.mem_cons_self e0 e')
        have hne := (keywordish_char_facts K hKkw e0 hmem).2.1
        rw [← hz] at hne
        exact hne rfl
    · -- the parse keyword lies inside the verbatim prefix plus keyword
      rcases List.append_eq_append_iff.mp he2 with ⟨f, hf1, hf2⟩ | ⟨f, hf1, hf2⟩
      · -- the whitespace run S1 of the parse is a prefix of the remainder e
        cases f with
        | nil =>
          rw [List.append_nil] at hf1
          rw [hf1] at he1
          exact bk_eq_kw_spaces_absurd (c :: a) k K S1 hKkw hkw (by simp) hS1 he1
        | cons z f' =>
          rw [List.cons_append] at hf2
          injection hf2 with hz hE3
          subst hz
          rw [hf1] at he1
          rcases List.append_eq_append_iff.mp hE3 with ⟨g, hg1, hg2⟩ | ⟨g, hg1, hg2⟩
          · -- the second whitespace run S2 is a prefix of f'
            cases g with
            | nil =>
              rw [List.append_nil] at hg1
              rw [hg1] at he1
              have hbuild := tryMatch_build K S1 (S2 ++ ws1) '=' (ws2 ++ (v ++ rest))
                hKkw hS1 (allSpace_append S2 ws1 hS2 hws1) (by decide)
              have hx : c :: t =
                  K ++ (S1 ++ '=' :: ((S2 ++ ws1) ++ '=' :: (ws2 ++ (v ++ rest)))) := by
                rw [hxnorm, he1]
                simp [List.cons_append, List.append_assoc]
              rw [hx, hbuild] at hnone
              cases hnone
            | cons y g' =>
              rw [List.cons_append] at hg2
              cases V with
              | nil => exact hVne rfl
              | cons v0 V' =>
                rw [List.cons_append] at hg2
                injection hg2 with hv0 _
                have hv0sp : isSpace v0 = false := hVns v0 (List.mem_cons_self v0 V')
                rw [hv0] at hv0sp
                rw [hg1] at he1
                have hbuild := tryMatch_build K S1 S2 y
                  (g' ++ (ws1 ++ '=' :: (ws2 ++ (v ++ rest)))) hKkw hS1 hS2 hv0sp
                have hx : c :: t =
                    K ++ (S1 ++ '=' :: (S2 ++ y ::
                      (g' ++ (ws1 ++ '=' :: (ws2 ++ (v ++ rest)))))) := by
                  rw [hxnorm, he1]
                  simp [List.cons_append, List.append_assoc]
                rw [hx, hbuild] at hnone
                cases hnone
          · -- f' is a prefix of the second whitespace run S2
            cases g with
            | nil =>
              rw [List.append_nil] at hg1
              rw [← hg1] at he1
              have hbuild := tryMatch_build K S1 (S2 ++ ws1) '=' (ws2 ++ (v ++ rest))
                hKkw hS1 (allSpace_append S2 ws1 hS2 hws1) (by decide)
              have hx : c :: t =
                  K ++ (S1 ++ '=' :: ((S2 ++ ws1) ++ '=' :: (ws2 ++ (v ++ rest)))) := by
                rw [hxnorm, he1]
                simp [List.cons_append, List.append_assoc]
              rw [hx, hbuild] at hnone
              cases hnone
            | cons y g' =>
              rw [List.cons_append] at hg2
              injection hg2 with hz2 _
              have hymem : y ∈ S2 := by
                rw [hg1]
                exact List.mem_append_right _ (List.mem_cons_self y g')
              have hysp := hS2 y hymem
              rw [← hz2] at hysp
              exact absurd hysp (by decide)
      · -- e is a prefix of the whitespace run S1
        cases f with
        | nil =>
          rw [List.append_nil] at hf1
          rw [← hf1] at he1
          exact bk_eq_kw_spaces_absurd (c :: a) k K S1 hKkw hkw (by simp) hS1 he1
        | cons y f' =>
          rw [List.cons_append] at hf2
          injection hf2 with hz2 _
          have hymem : y ∈ S1 := by
            rw [hf1]
            exact List.mem_append_right _ (List.mem_cons_self y f')
          have hysp := hS1 y hymem
          rw [← hz2] at hysp
          exact absurd hysp (by decide)

/-! ### Redaction: main safety theorem -/

theorem redact_scan_good (n : Nat) :
    ∀ (l : List Char), l.length ≤ n →
      ∀ suf, suf <:+ redactList l →
        ∀ K V R, tryMatch suf = some (K, V, R) → V = ['*', '*', '*'] := by
  induction n with
  | zero =>
    intro l hl suf hsuf K V R htm
    have hnil : l = [] := List.length_eq_zero.mp (Nat.le_zero.mp hl)
    subst hnil
    rw [redactList_nil] at hsuf
    have hs : suf = [] := List.suffix_nil.mp hsuf
    subst hs
    rw [tryMatch_nil] at htm
    cases htm
  | succ n ih =>
    intro l hl suf hsuf K V R htm
    cases hm : tryMatch l with
    | some KVR0 =>
      obtain ⟨K0, V0, R0⟩ := KVR0
      obtain ⟨hK0kw, -, -, hR0w, -, -, -, -, -⟩ := tryMatch_shape l K0 V0 R0 hm
      rw [redactList_some l K0 V0 R0 hm] at hsuf
      have hR0len : R0.length ≤ n := by
        have := tryMatch_rest_lt l K0 V0 R0 hm
        omega
      have hWw : headWsOrEmpty (redactList R0) := redactList_hwe R0 hR0w
      rcases suffix_append_split suf K0 ('=' :: '*' :: '*' :: '*' :: redactList R0) hsuf with
        hsufB | ⟨a', ha', rfl⟩
      · rcases List.suffix_cons_iff.mp hsufB with rfl | hsufB
        · rw [tryMatch_none_head '=' _ (by decide) (by decide)] at htm
          cases htm
        rcases List.suffix_cons_iff.mp hsufB with rfl | hsufB
        · rw [tryMatch_none_head '*' _ (by decide) (by decide)] at htm
          cases htm
        rcases List.suffix_cons_iff.mp hsufB with rfl | hsufB
        · rw [tryMatch_none_head '*' _ (by decide) (by decide)] at htm
          cases htm
        rcases List.suffix_cons_iff.mp hsufB with rfl | hsufB
        · rw [tryMatch_none_head '*' _ (by decide) (by decide)] at htm
          cases htm
        exact ih R0 hR0len suf hsufB K V R htm
      · by_cases ha'K : a' = K0
        · subst ha'K
          rw [tryMatch_block a' (redactList R0) hK0kw hWw] at htm
          have h3 := Option.some.inj htm
          exact (congrArg (fun x => x.2.1) h3).symm
        · rw [tryMatch_keyword_none _
            (kw_proper_suffix_none K0 a' hK0kw ha' ha'K ('*' :: '*' :: '*' :: redactList R0))] at htm
          cases htm
    | none =>
      cases l with
      | nil =>
        rw [redactList_nil] at hsuf
        have hs : suf = [] := List.suffix_nil.mp hsuf
        subst hs
        rw [tryMatch_nil] at htm
        cases htm
      | cons c t =>
        rw [redactList_none_cons c t hm] at hsuf
        rcases List.suffix_cons_iff.mp hsuf with rfl | hsuf2
        · rw [tryMatch_none_redact c t hm] at htm
          cases htm
        · have htlen : t.length ≤ n := by
            simp only [List.length_cons] at hl
            omega
          exact ih t htlen suf hsuf2 K V R htm

/-- Claim C3: for every error message passed to the audit-log writer,
the redacted text contains no unredacted credential: at every suffix
position of the redacted message where the credential pattern
(password or secret, optional whitespace around the equals sign,
case-insensitive, greedy non-space value) matches, the value part is
exactly the three asterisks — so no credential value survives into
the log line. -/
theorem log_error_redaction_safe (error : String) (suf : List Char)
    (hsuf : suf <:+ (redact error).data) (K V R : List Char)
    (h : tryMatch suf = some (K, V, R)) : V = ['*', '*', '*'] :=
  redact_scan_good error.data.length error.data (le_refl _) suf hsuf K V R h

/-- Witness for log_error_redaction_safe: a concrete message whose
password value is redacted; the pattern matches at the redacted
suffix with value exactly three asterisks. -/
theorem log_error_redaction_safe_witness :
    "password=***".data <:+ (redact "login failed password=Hunter2").data ∧
    tryMatch ("password=***".data) = some ("password".data, ['*', '*', '*'], []) ∧
    (['*', '*', '*'] : List Char) = ['*', '*', '*'] := by
  have h1 : "password=***".data <:+ (redact "login failed password=Hunter2").data :=
    ⟨"login failed ".data, by decide⟩
  have h2 : tryMatch ("password=***".data) = some ("password".data, ['*', '*', '*'], []) := by
    decide
  exact ⟨h1, h2, log_error_redaction_safe "login failed password=Hunter2" _ h1 _ _ _ h2⟩
